import Mathlib

/-!
# Verification of the NEAR password-manager contract

A shallow embedding of `src/lib.rs` and `src/user_account.rs` (crate
`near-password-manager`).  Rust `String`s are modelled as `List Char`
(sequences of Unicode scalar values), byte strings as `List Nat` with
entries `< 256`, `u128`/`u64` arithmetic as checked `Nat` arithmetic
(NEAR contract builds enable `overflow-checks`, and the crate's own
test profile does as well: an arithmetic overflow aborts the call), and the
NEAR collections `UnorderedMap` / `UnorderedSet` as association lists
and lists.  `env::panic_str` ends the call with an error, leaving the
state as mutated so far — matching the execution model of the spec
(section 5), in which the storage has already observed the writes and
any rollback must be performed by explicit inverse operations.
-/

namespace PassMan

/-! ## The codec: base64 (the `base64` crate's `encode`/`decode`) -/

/-- The standard base64 alphabet, RFC 4648. -/
def b64Alphabet : List Char :=
  ['A','B','C','D','E','F','G','H','I','J','K','L','M','N','O','P','Q','R','S','T',
   'U','V','W','X','Y','Z','a','b','c','d','e','f','g','h','i','j','k','l','m','n',
   'o','p','q','r','s','t','u','v','w','x','y','z','0','1','2','3','4','5','6','7',
   '8','9','+','/']

/-- Sextet value to base64 character. -/
def b64ValToChar (n : Nat) : Char := b64Alphabet.getD n 'A'

/-- Base64 character back to its sextet value; `none` for characters
outside the alphabet (including the padding `=`). -/
def b64CharToVal (c : Char) : Option Nat :=
  let i := b64Alphabet.findIdx (· = c)
  if i < 64 then some i else none

/-- `base64::encode`: bytes to padded standard base64 text. -/
def b64encode : List Nat → List Char
  | [] => []
  | [b0] =>
      [b64ValToChar (b0 / 4), b64ValToChar (b0 % 4 * 16), '=', '=']
  | [b0, b1] =>
      [b64ValToChar (b0 / 4), b64ValToChar (b0 % 4 * 16 + b1 / 16),
       b64ValToChar (b1 % 16 * 4), '=']
  | b0 :: b1 :: b2 :: rest =>
      b64ValToChar (b0 / 4) :: b64ValToChar (b0 % 4 * 16 + b1 / 16) ::
      b64ValToChar (b1 % 16 * 4 + b2 / 64) :: b64ValToChar (b2 % 64) ::
      b64encode rest

/-- `base64::decode` with the crate's default configuration: padded
standard alphabet, padding only in the final quantum, non-canonical
trailing bits rejected. -/
def b64decode : List Char → Option (List Nat)
  | [] => some []
  | c0 :: c1 :: c2 :: c3 :: rest =>
      if rest = [] ∧ c2 = '=' ∧ c3 = '=' then do
        let v0 ← b64CharToVal c0
        let v1 ← b64CharToVal c1
        if v1 % 16 = 0 then some [v0 * 4 + v1 / 16] else none
      else if rest = [] ∧ c3 = '=' then do
        let v0 ← b64CharToVal c0
        let v1 ← b64CharToVal c1
        let v2 ← b64CharToVal c2
        if v2 % 4 = 0 then some [v0 * 4 + v1 / 16, v1 % 16 * 16 + v2 / 4] else none
      else do
        let v0 ← b64CharToVal c0
        let v1 ← b64CharToVal c1
        let v2 ← b64CharToVal c2
        let v3 ← b64CharToVal c3
        let bs ← b64decode rest
        some ((v0 * 4 + v1 / 16) :: (v1 % 16 * 16 + v2 / 4) :: (v2 % 4 * 64 + v3) :: bs)
  | _ => none

/-- All bytes below 256. -/
def Bytes (bs : List Nat) : Prop := ∀ b ∈ bs, b < 256

/-! ## UTF-8: the byte representation of Rust `String`s, and
`std::str::from_utf8` -/

/-- UTF-8 encoding of one Unicode scalar value (`String.utf8EncodeChar`
over `Nat`). -/
def utf8EncodeNat (c : Nat) : List Nat :=
  if c < 0x80 then [c]
  else if c < 0x800 then [0xC0 + c / 64, 0x80 + c % 64]
  else if c < 0x10000 then [0xE0 + c / 4096, 0x80 + c / 64 % 64, 0x80 + c % 64]
  else [0xF0 + c / 262144, 0x80 + c / 4096 % 64, 0x80 + c / 64 % 64, 0x80 + c % 64]

/-- The UTF-8 byte sequence of a Rust `String`. -/
def utf8Encode (cs : List Char) : List Nat :=
  (cs.map (fun c => utf8EncodeNat c.toNat)).flatten

/-- Decode one UTF-8 character from the front of a byte sequence,
returning it with the remaining bytes.  Strict, like Rust's
`std::str::from_utf8`: continuation bytes must lie in `[0x80, 0xC0)`,
overlong forms, surrogates and values above `0x10FFFF` are rejected. -/
def utf8DecodeChar : List Nat → Option (Char × List Nat)
  | [] => none
  | b0 :: bs =>
      if b0 < 0x80 then some (Char.ofNat b0, bs)
      else if b0 < 0xC2 then none
      else if b0 < 0xE0 then
        match bs with
        | b1 :: bs2 =>
            if 0x80 ≤ b1 ∧ b1 < 0xC0 then
              some (Char.ofNat ((b0 - 0xC0) * 64 + (b1 - 0x80)), bs2)
            else none
        | [] => none
      else if b0 < 0xF0 then
        match bs with
        | b1 :: b2 :: bs2 =>
            if (0x80 ≤ b1 ∧ b1 < 0xC0) ∧ (0x80 ≤ b2 ∧ b2 < 0xC0) then
              if (b0 - 0xE0) * 4096 + (b1 - 0x80) * 64 + (b2 - 0x80) < 0x800 ∨
                 (0xD800 ≤ (b0 - 0xE0) * 4096 + (b1 - 0x80) * 64 + (b2 - 0x80) ∧
                  (b0 - 0xE0) * 4096 + (b1 - 0x80) * 64 + (b2 - 0x80) < 0xE000) then none
              else some (Char.ofNat ((b0 - 0xE0) * 4096 + (b1 - 0x80) * 64 + (b2 - 0x80)), bs2)
            else none
        | _ => none
      else if b0 < 0xF5 then
        match bs with
        | b1 :: b2 :: b3 :: bs2 =>
            if (0x80 ≤ b1 ∧ b1 < 0xC0) ∧ (0x80 ≤ b2 ∧ b2 < 0xC0) ∧
               (0x80 ≤ b3 ∧ b3 < 0xC0) then
              if (b0 - 0xF0) * 262144 + (b1 - 0x80) * 4096 +
                 (b2 - 0x80) * 64 + (b3 - 0x80) < 0x10000 ∨
                 0x110000 ≤ (b0 - 0xF0) * 262144 + (b1 - 0x80) * 4096 +
                 (b2 - 0x80) * 64 + (b3 - 0x80) then none
              else some (Char.ofNat ((b0 - 0xF0) * 262144 + (b1 - 0x80) * 4096 +
                                     (b2 - 0x80) * 64 + (b3 - 0x80)), bs2)
            else none
        | _ => none
      else none

/-- Character-by-character UTF-8 decoding with explicit fuel, so that
the definition is structurally recursive and kernel-reducible; one unit
of fuel is spent per decoded character, so fuel equal to the byte count
always suffices. -/
def utf8DecodeFuel : Nat → List Nat → Option (List Char)
  | _, [] => some []
  | 0, _ :: _ => none
  | fuel + 1, b0 :: bs =>
      match utf8DecodeChar (b0 :: bs) with
      | none => none
      | some (c, rest) => (utf8DecodeFuel fuel rest).map (fun cs => c :: cs)

/-- `std::str::from_utf8` followed by `to_string`: the full decoding of
a byte sequence back into a Rust `String`; `none` on invalid UTF-8. -/
def utf8Decode (bs : List Nat) : Option (List Char) := utf8DecodeFuel bs.length bs

/-! ## NEAR collections: `UnorderedMap` / `UnorderedSet` as association
lists and lists (iteration order is insertion order; a removal is
modelled extensionally by filtering) -/

/-- `UnorderedMap::get`: the value at the first matching key. -/
def alGet {K V : Type} [DecidableEq K] : List (K × V) → K → Option V
  | [], _ => none
  | p :: m, k => if p.1 = k then some p.2 else alGet m k

/-- `UnorderedMap::insert`: overwrite the value in place if the key is
present, append otherwise. -/
def alInsert {K V : Type} [DecidableEq K] : List (K × V) → K → V → List (K × V)
  | [], k, v => [(k, v)]
  | p :: m, k, v => if p.1 = k then (k, v) :: m else p :: alInsert m k v

/-- `UnorderedMap::remove`. -/
def alRemove {K V : Type} [DecidableEq K] (m : List (K × V)) (k : K) : List (K × V) :=
  m.filter (fun p => p.1 ≠ k)

/-- `UnorderedSet::insert`. -/
def setInsert (s : List Nat) (x : Nat) : List Nat :=
  if x ∈ s then s else s ++ [x]

/-- `UnorderedSet::remove`. -/
def setRemove (s : List Nat) (x : Nat) : List Nat :=
  s.filter (fun y => y ≠ x)

/-! ## Data model (`src/user_account.rs`, `src/lib.rs`) -/

/-- `UserAccount` from `src/user_account.rs`.  `UserAccountId = u128` is
a `Nat`; `AccountId` is a `String`; the remaining Rust `String`s are
`List Char`. -/
structure UserAccount where
  id : Nat
  user_id : String
  website : List Char
  username : List Char
  password : List Char
deriving DecidableEq

/-- The persistent state of `PassManager` (the `owner_id` field is never
read by any operation and is omitted). -/
structure PMState where
  accounts_per_user : List (String × List Nat)
  accounts_by_id : List (Nat × UserAccount)
  account_id_counter : Nat
deriving DecidableEq

/-- `PassManager::new`: empty maps, counter zero. -/
def newState : PMState := ⟨[], [], 0⟩

/-- The panics a call can end with (`env::panic_str`, `assert!`,
`expect`, `unwrap` and checked arithmetic). -/
inductive CallError where
  | NoDeposit
  | InsufficientPayment (required : Nat)
  | InvalidUser
  | AccountNotFound
  | CannotDecodeUsername
  | UsernameNotAString
  | CannotDecodePassword
  | PasswordNotAString
  | IndexUnwrapFailed
  | ArithmeticOverflow
deriving DecidableEq

/-- The caller-supplied part of the NEAR environment: the attached
deposit and the storage byte-cost rate (both u128 yoctoNEAR). -/
structure Env where
  attached_deposit : Nat
  storage_byte_cost : Nat
deriving DecidableEq

/-- Result of a mutating call: the post-call state, the refund
transfers issued, and the panic it ended with, if any. -/
structure CallOut where
  st : PMState
  transfers : List Nat
  err : Option CallError
deriving DecidableEq

def U128MAX : Nat := 2 ^ 128 - 1

/-- Modelled from the spec: `env::storage_usage()`.  Byte-level storage
metering is excluded from the core (spec section 1) and treated as a
storage-usage counter supplied by the host; it is modelled as a
deterministic byte measure of the three persisted partitions — a
constant for the scalar counter, and per entry a constant plus the
byte lengths of the stored keys and fields. -/
def recordBytes (a : UserAccount) : Nat :=
  40 + a.user_id.length + a.website.length + a.username.length + a.password.length

def storageUsage (s : PMState) : Nat :=
  16 + (s.accounts_by_id.map (fun kv => 16 + recordBytes kv.2)).sum
     + (s.accounts_per_user.map (fun kv => 20 + kv.1.length + 16 * kv.2.length)).sum

/-! ## Operations -/

/-- `decode_credentials` from `src/user_account.rs`: base64-decode each
credential field and re-check it as UTF-8, panicking on failure. -/
def decode_credentials (account : UserAccount) : Except CallError UserAccount :=
  match b64decode account.username with
  | none => .error .CannotDecodeUsername
  | some d =>
      match utf8Decode d with
      | none => .error .UsernameNotAString
      | some username =>
          match b64decode account.password with
          | none => .error .CannotDecodePassword
          | some d2 =>
              match utf8Decode d2 with
              | none => .error .PasswordNotAString
              | some pass => .ok { account with username := username, password := pass }

/-- The loop inside `get_one_account`: walk the user's id set in order,
dereference each id into `accounts_by_id` (`.unwrap()`), and return the
first record whose website matches, decoded. -/
def findInSet (s : PMState) (website : List Char) :
    List Nat → Except CallError (Option UserAccount)
  | [] => .ok none
  | acc :: rest =>
      match alGet s.accounts_by_id acc with
      | none => .error .IndexUnwrapFailed
      | some a =>
          if a.website = website then
            match decode_credentials a with
            | .error e => .error e
            | .ok a' => .ok (some a')
          else findInSet s website rest

/-- `get_one_account` from `src/lib.rs`. -/
def get_one_account (s : PMState) (user_id : String) (website : List Char) :
    Except CallError (Option UserAccount) :=
  match alGet s.accounts_per_user user_id with
  | some acc_set => findInSet s website acc_set
  | none => .ok none

/-- The mapped iteration inside `get_accounts_per_user`: dereference and
decode every id of the set, in order. -/
def decodeAll (s : PMState) : List Nat → Except CallError (List UserAccount)
  | [] => .ok []
  | x :: rest =>
      match alGet s.accounts_by_id x with
      | none => .error .IndexUnwrapFailed
      | some acc =>
          match decode_credentials acc with
          | .error e => .error e
          | .ok a' =>
              match decodeAll s rest with
              | .error e => .error e
              | .ok l => .ok (a' :: l)

/-- `get_accounts_per_user` from `src/lib.rs` (`expect("Invalid user")`
on an unknown user). -/
def get_accounts_per_user (s : PMState) (user_id : String) :
    Except CallError (List UserAccount) :=
  match alGet s.accounts_per_user user_id with
  | none => .error .InvalidUser
  | some acc_set => decodeAll s acc_set

/-- `get_users_count` from `src/lib.rs`: `accounts_per_user.len()`. -/
def get_users_count (s : PMState) : Nat :=
  s.accounts_per_user.length

/-- `add_account_to_user` from `src/user_account.rs`. -/
def add_account_to_user (s : PMState) (user_id : String) (account_id : Nat) : PMState :=
  let account_set := (alGet s.accounts_per_user user_id).getD []
  { s with accounts_per_user :=
      alInsert s.accounts_per_user user_id (setInsert account_set account_id) }

/-- `remove_account_from_user` from `src/user_account.rs`:
`expect("Invalid User")` when the user has no entry; removes the id
from the set, deletes the entry if the set became empty, and reports
whether a removal occurred. -/
def remove_account_from_user (s : PMState) (user_id : String) (account_id : Nat) :
    Except CallError (PMState × Bool) :=
  match alGet s.accounts_per_user user_id with
  | none => .error .InvalidUser
  | some account_set =>
      let removed := account_set.contains account_id
      let set' := setRemove account_set account_id
      if set'.isEmpty then
        .ok ({ s with accounts_per_user := alRemove s.accounts_per_user user_id }, removed)
      else
        .ok ({ s with accounts_per_user := alInsert s.accounts_per_user user_id set' }, removed)

/-- The record `add_account` writes, with the two `base64::encode`
calls applied to the credentials. -/
def mkAccount (id : Nat) (u : String) (w un pw : List Char) : UserAccount :=
  ⟨id, u, w, b64encode (utf8Encode un), b64encode (utf8Encode pw)⟩

/-- The tail of `add_account` after the id has been resolved:
base64-encode the credentials, insert the record, attach the id, then
compare the storage cost of the u64 delta
`storage_usage() - init_storage_used` with the deposit: on shortfall
remove the record, detach the id and panic with the required amount;
otherwise refund the surplus when it exceeds 1 yoctoNEAR. -/
def add_account_core (env : Env) (init_storage_used : Nat) (s1 : PMState)
    (user_id : String) (website username password : List Char) (id : Nat) : CallOut :=
  let account : UserAccount := mkAccount id user_id website username password
  let s2 := { s1 with accounts_by_id := alInsert s1.accounts_by_id account.id account }
  let s3 := add_account_to_user s2 user_id account.id
  if storageUsage s3 < init_storage_used then
    ⟨s3, [], some .ArithmeticOverflow⟩
  else
    let storage_used := storageUsage s3 - init_storage_used
    if env.storage_byte_cost * storage_used > U128MAX then
      ⟨s3, [], some .ArithmeticOverflow⟩
    else
      let required_cost := env.storage_byte_cost * storage_used
      if required_cost > env.attached_deposit then
        let s4 := { s3 with accounts_by_id := alRemove s3.accounts_by_id account.id }
        match remove_account_from_user s4 user_id account.id with
        | .error e => ⟨s4, [], some e⟩
        | .ok (s5, _) => ⟨s5, [], some (.InsufficientPayment required_cost)⟩
      else
        let refund := env.attached_deposit - required_cost
        ⟨s3, if refund > 1 then [refund] else [], none⟩

/-- `add_account` from `src/lib.rs`: assert a deposit of at least one
yoctoNEAR, snapshot storage usage, resolve an existing id via
`get_one_account` (an update) or allocate `account_id_counter + 1`
(a creation, persisting the incremented counter), then run the storage
accounting tail. -/
def add_account (env : Env) (s : PMState) (user_id : String)
    (website username password : List Char) : CallOut :=
  if env.attached_deposit < 1 then ⟨s, [], some .NoDeposit⟩ else
  match get_one_account s user_id website with
  | .error e => ⟨s, [], some e⟩
  | .ok (some account) =>
      add_account_core env (storageUsage s) s user_id website username password account.id
  | .ok none =>
      if s.account_id_counter + 1 ≤ U128MAX then
        add_account_core env (storageUsage s)
          { s with account_id_counter := s.account_id_counter + 1 }
          user_id website username password (s.account_id_counter + 1)
      else ⟨s, [], some .ArithmeticOverflow⟩

/-- `remove_account` from `src/lib.rs`: snapshot storage, detach the id
via `remove_account_from_user`, panic `"Account not found"` when no
removal occurred, delete the record, and refund the cost of the
released bytes when it exceeds 1 yoctoNEAR. -/
def remove_account (env : Env) (s : PMState) (user_id : String) (account_id : Nat) :
    CallOut :=
  let init_storage_used := storageUsage s
  match remove_account_from_user s user_id account_id with
  | .error e => ⟨s, [], some e⟩
  | .ok (s1, removed_from_user) =>
      if !removed_from_user then ⟨s1, [], some .AccountNotFound⟩
      else
        let s2 := { s1 with accounts_by_id := alRemove s1.accounts_by_id account_id }
        if init_storage_used < storageUsage s2 then ⟨s2, [], some .ArithmeticOverflow⟩
        else
          let storage_released := init_storage_used - storageUsage s2
          if env.storage_byte_cost * storage_released > U128MAX then
            ⟨s2, [], some .ArithmeticOverflow⟩
          else
            let refund := env.storage_byte_cost * storage_released
            ⟨s2, if refund > 1 then [refund] else [], none⟩

/-- The states reachable from a fresh instance through the public
mutating operations (the read operations do not change state). -/
inductive Reachable : PMState → Prop where
  | init : Reachable newState
  | add (env : Env) (s : PMState) (u : String) (w un pw : List Char) :
      Reachable s → Reachable (add_account env s u w un pw).st
  | remove (env : Env) (s : PMState) (u : String) (id : Nat) :
      Reachable s → Reachable (remove_account env s u id).st

/-! ## The state invariant -/

/-- A stored credential field: the base64 encoding of the UTF-8 bytes
of some plaintext. -/
def WellEncoded (cs : List Char) : Prop :=
  ∃ p : List Char, cs = b64encode (utf8Encode p)

/-- Referential integrity between the User Index and the Account Table,
identifier discipline and well-encodedness of stored credentials. -/
structure Inv (s : PMState) : Prop where
  apu_nodup : (s.accounts_per_user.map Prod.fst).Nodup
  abi_nodup : (s.accounts_by_id.map Prod.fst).Nodup
  set_spec : ∀ u set, alGet s.accounts_per_user u = some set →
    set ≠ [] ∧ set.Nodup ∧
    ∀ id ∈ set, ∃ a, alGet s.accounts_by_id id = some a ∧ a.user_id = u
  rec_spec : ∀ id a, alGet s.accounts_by_id id = some a →
    a.id = id ∧ 1 ≤ id ∧ id ≤ s.account_id_counter ∧
    (∃ set, alGet s.accounts_per_user a.user_id = some set ∧ id ∈ set) ∧
    WellEncoded a.username ∧ WellEncoded a.password
  unique_site : ∀ id id' a a', alGet s.accounts_by_id id = some a →
    alGet s.accounts_by_id id' = some a' →
    a.user_id = a'.user_id → a.website = a'.website → id = id'

/-! ## Behaviour of `remove_account` -/

/-- The state left behind after detaching `id` from `u`'s set `set` and
deleting the record: the common post-state of a successful
`remove_account` and of the rollback path of `add_account`. -/
def detachState (s : PMState) (u : String) (id : Nat) (set : List Nat) : PMState :=
  ⟨if (setRemove set id).isEmpty then alRemove s.accounts_per_user u
    else alInsert s.accounts_per_user u (setRemove set id),
   alRemove s.accounts_by_id id, s.account_id_counter⟩

/-! ## Lemmas and claim theorems -/

theorem b64CharToVal_b64ValToChar (n : Nat) (h : n < 64) :
    b64CharToVal (b64ValToChar n) = some n := by
  interval_cases n <;> decide

theorem b64ValToChar_ne_pad (n : Nat) (h : n < 64) : b64ValToChar n ≠ '=' := by
  interval_cases n <;> decide

theorem b64_roundtrip (bs : List Nat) (h : Bytes bs) :
    b64decode (b64encode bs) = some bs := by
  induction bs using b64encode.induct with
  | case1 => simp [b64encode, b64decode]
  | case2 b0 =>
      have hb0 : b0 < 256 := h b0 (by simp)
      have h0 : b0 / 4 < 64 := by omega
      have h1 : b0 % 4 * 16 < 64 := by omega
      rw [b64encode, b64decode]
      rw [if_pos ⟨rfl, rfl, rfl⟩]
      simp only [b64CharToVal_b64ValToChar _ h0, b64CharToVal_b64ValToChar _ h1,
        Option.bind_eq_bind, Option.some_bind]
      rw [if_pos (by omega)]
      congr 2
      omega
  | case3 b0 b1 =>
      have hb0 : b0 < 256 := h b0 (by simp)
      have hb1 : b1 < 256 := h b1 (by simp)
      have h0 : b0 / 4 < 64 := by omega
      have h1 : b0 % 4 * 16 + b1 / 16 < 64 := by omega
      have h2 : b1 % 16 * 4 < 64 := by omega
      rw [b64encode, b64decode]
      rw [if_neg (fun hc => b64ValToChar_ne_pad _ h2 hc.2.1)]
      rw [if_pos ⟨rfl, rfl⟩]
      simp only [b64CharToVal_b64ValToChar _ h0, b64CharToVal_b64ValToChar _ h1,
        b64CharToVal_b64ValToChar _ h2, Option.bind_eq_bind, Option.some_bind]
      rw [if_pos (by omega)]
      congr 1
      have e0 : b0 / 4 * 4 + (b0 % 4 * 16 + b1 / 16) / 16 = b0 := by omega
      have e1 : (b0 % 4 * 16 + b1 / 16) % 16 * 16 + b1 % 16 * 4 / 4 = b1 := by omega
      rw [e0, e1]
  | case4 b0 b1 b2 rest ih =>
      have hb0 : b0 < 256 := h b0 (by simp)
      have hb1 : b1 < 256 := h b1 (by simp)
      have hb2 : b2 < 256 := h b2 (by simp)
      have hrest : Bytes rest := fun b hb => h b (by simp [hb])
      have h0 : b0 / 4 < 64 := by omega
      have h1 : b0 % 4 * 16 + b1 / 16 < 64 := by omega
      have h2 : b1 % 16 * 4 + b2 / 64 < 64 := by omega
      have h3 : b2 % 64 < 64 := by omega
      rw [b64encode, b64decode]
      rw [if_neg (fun hc => b64ValToChar_ne_pad _ h2 hc.2.1)]
      rw [if_neg (fun hc => b64ValToChar_ne_pad _ h3 hc.2)]
      simp only [b64CharToVal_b64ValToChar _ h0, b64CharToVal_b64ValToChar _ h1,
        b64CharToVal_b64ValToChar _ h2, b64CharToVal_b64ValToChar _ h3,
        Option.bind_eq_bind, Option.some_bind, ih hrest]
      congr 2
      · omega
      · congr 1
        · omega
        · congr 1
          omega

theorem utf8DecodeChar_suffix {l : List Nat} {c : Char} {rest : List Nat}
    (h : utf8DecodeChar l = some (c, rest)) : rest.length < l.length := by
  cases l with
  | nil => exact absurd h (by simp [utf8DecodeChar])
  | cons b0 bs =>
      simp only [utf8DecodeChar] at h
      repeat' split at h
      all_goals try exact Option.noConfusion h
      all_goals
        simp only [Option.some.injEq, Prod.mk.injEq] at h
        obtain ⟨h1, h2⟩ := h
        subst h2
        simp only [List.length_cons]
        omega

theorem utf8DecodeFuel_congr (f : Nat) : ∀ (g : Nat) (bs : List Nat),
    bs.length ≤ f → bs.length ≤ g → utf8DecodeFuel f bs = utf8DecodeFuel g bs := by
  induction f with
  | zero =>
      intro g bs h h'
      cases bs with
      | nil => cases g <;> rfl
      | cons b t => simp at h
  | succ f ih =>
      intro g bs h h'
      cases bs with
      | nil => cases g <;> rfl
      | cons b0 tl =>
          cases g with
          | zero => simp at h'
          | succ g' =>
              rw [utf8DecodeFuel, utf8DecodeFuel]
              cases hdc : utf8DecodeChar (b0 :: tl) with
              | none => rfl
              | some p =>
                  obtain ⟨c, rest⟩ := p
                  have hrest : rest.length < tl.length + 1 := utf8DecodeChar_suffix hdc
                  simp only
                  rw [ih g' rest (by simp at h; omega) (by simp at h'; omega)]

/-- The unicode scalar value of a `Char` is below `0xD800` or in
`(0xDFFF, 0x110000)`. -/
theorem char_toNat_valid (c : Char) :
    c.toNat < 0xD800 ∨ (0xDFFF < c.toNat ∧ c.toNat < 0x110000) := c.valid

theorem utf8DecodeChar_encode (c : Char) (bs : List Nat) :
    utf8DecodeChar (utf8EncodeNat c.toNat ++ bs) = some (c, bs) := by
  have hv := char_toNat_valid c
  set n := c.toNat with hn
  rcases Nat.lt_or_ge n 0x80 with h1 | h1
  · rw [utf8EncodeNat, if_pos h1]
    simp only [List.cons_append, List.nil_append, utf8DecodeChar, if_pos h1]
    rw [hn, Char.ofNat_toNat]
  · rcases Nat.lt_or_ge n 0x800 with h2 | h2
    · rw [utf8EncodeNat, if_neg (by omega), if_pos h2]
      have c1 : ¬ (0xC0 + n / 64 < 0x80) := by omega
      have c2 : ¬ (0xC0 + n / 64 < 0xC2) := by omega
      have c3 : 0xC0 + n / 64 < 0xE0 := by omega
      have c4 : 0x80 ≤ 0x80 + n % 64 ∧ 0x80 + n % 64 < 0xC0 := by omega
      simp only [List.cons_append, List.nil_append, utf8DecodeChar,
        if_neg c1, if_neg c2, if_pos c3, if_pos c4]
      have e : (0xC0 + n / 64 - 0xC0) * 64 + (0x80 + n % 64 - 0x80) = n := by omega
      rw [e, hn, Char.ofNat_toNat]
    · rcases Nat.lt_or_ge n 0x10000 with h3 | h3
      · rw [utf8EncodeNat, if_neg (by omega), if_neg (by omega), if_pos h3]
        have c1 : ¬ (0xE0 + n / 4096 < 0x80) := by omega
        have c2 : ¬ (0xE0 + n / 4096 < 0xC2) := by omega
        have c3 : ¬ (0xE0 + n / 4096 < 0xE0) := by omega
        have c4 : 0xE0 + n / 4096 < 0xF0 := by omega
        have c5 : (0x80 ≤ 0x80 + n / 64 % 64 ∧ 0x80 + n / 64 % 64 < 0xC0) ∧
                  (0x80 ≤ 0x80 + n % 64 ∧ 0x80 + n % 64 < 0xC0) := by omega
        simp only [List.cons_append, List.nil_append, utf8DecodeChar,
          if_neg c1, if_neg c2, if_neg c3, if_pos c4, if_pos c5]
        have e : (0xE0 + n / 4096 - 0xE0) * 4096 + (0x80 + n / 64 % 64 - 0x80) * 64 +
                 (0x80 + n % 64 - 0x80) = n := by omega
        rw [e]
        have c6 : ¬ (n < 0x800 ∨ (0xD800 ≤ n ∧ n < 0xE000)) := by omega
        rw [if_neg c6, hn, Char.ofNat_toNat]
      · rw [utf8EncodeNat, if_neg (by omega), if_neg (by omega), if_neg (by omega)]
        have c1 : ¬ (0xF0 + n / 262144 < 0x80) := by omega
        have c2 : ¬ (0xF0 + n / 262144 < 0xC2) := by omega
        have c3 : ¬ (0xF0 + n / 262144 < 0xE0) := by omega
        have c4 : ¬ (0xF0 + n / 262144 < 0xF0) := by omega
        have c5 : 0xF0 + n / 262144 < 0xF5 := by omega
        have c6 : (0x80 ≤ 0x80 + n / 4096 % 64 ∧ 0x80 + n / 4096 % 64 < 0xC0) ∧
                  (0x80 ≤ 0x80 + n / 64 % 64 ∧ 0x80 + n / 64 % 64 < 0xC0) ∧
                  (0x80 ≤ 0x80 + n % 64 ∧ 0x80 + n % 64 < 0xC0) := by omega
        simp only [List.cons_append, List.nil_append, utf8DecodeChar,
          if_neg c1, if_neg c2, if_neg c3, if_neg c4, if_pos c5, if_pos c6]
        have e : (0xF0 + n / 262144 - 0xF0) * 262144 + (0x80 + n / 4096 % 64 - 0x80) * 4096 +
                 (0x80 + n / 64 % 64 - 0x80) * 64 + (0x80 + n % 64 - 0x80) = n := by omega
        rw [e]
        have c7 : ¬ (n < 0x10000 ∨ 0x110000 ≤ n) := by omega
        rw [if_neg c7, hn, Char.ofNat_toNat]

theorem utf8EncodeNat_ne_nil (n : Nat) : utf8EncodeNat n ≠ [] := by
  unfold utf8EncodeNat
  split <;> try split <;> try split
  all_goals simp

theorem utf8Decode_cons {b0 : Nat} {bs : List Nat} {c : Char} {rest : List Nat}
    (h : utf8DecodeChar (b0 :: bs) = some (c, rest)) :
    utf8Decode (b0 :: bs) = (utf8Decode rest).map (fun cs => c :: cs) := by
  have hlen : rest.length < (b0 :: bs).length := utf8DecodeChar_suffix h
  unfold utf8Decode
  show utf8DecodeFuel (bs.length + 1) (b0 :: bs) = _
  rw [utf8DecodeFuel]
  simp only [h]
  rw [utf8DecodeFuel_congr bs.length rest.length rest (by simp at hlen; omega) le_rfl]

theorem utf8_roundtrip (cs : List Char) : utf8Decode (utf8Encode cs) = some cs := by
  induction cs with
  | nil => simp [utf8Encode, utf8Decode, utf8DecodeFuel]
  | cons c cs ih =>
      have henc : utf8Encode (c :: cs) = utf8EncodeNat c.toNat ++ utf8Encode cs := by
        simp [utf8Encode]
      rw [henc]
      have hdc := utf8DecodeChar_encode c (utf8Encode cs)
      match he : utf8EncodeNat c.toNat with
      | [] => exact absurd he (utf8EncodeNat_ne_nil _)
      | b0 :: bs =>
          rw [he] at hdc
          rw [List.cons_append] at hdc ⊢
          rw [utf8Decode_cons hdc, ih]
          rfl

/-! ## Association-list and set lemmas -/

section AList

variable {K V : Type} [DecidableEq K]

theorem alGet_cons (p : K × V) (m : List (K × V)) (k : K) :
    alGet (p :: m) k = if p.1 = k then some p.2 else alGet m k := rfl

theorem alGet_alInsert_self (m : List (K × V)) (k : K) (v : V) :
    alGet (alInsert m k v) k = some v := by
  induction m with
  | nil => simp [alInsert, alGet]
  | cons p m ih =>
      by_cases h : p.1 = k
      · simp [alInsert, h, alGet]
      · simp [alInsert, h, alGet, ih]

theorem alGet_alInsert_ne (m : List (K × V)) (k k' : K) (v : V) (h : k' ≠ k) :
    alGet (alInsert m k v) k' = alGet m k' := by
  have hkk : ¬ k = k' := fun hk => h hk.symm
  induction m with
  | nil =>
      simp only [alInsert]
      rw [alGet_cons, if_neg (by simpa using hkk)]
  | cons p m ih =>
      by_cases hp : p.1 = k
      · simp only [alInsert, if_pos hp, alGet_cons]
        rw [if_neg (by simpa using hkk), if_neg (fun h1 => hkk (hp.symm.trans h1))]
      · simp only [alInsert, if_neg hp, alGet_cons, ih]

theorem alGet_alRemove_self (m : List (K × V)) (k : K) :
    alGet (alRemove m k) k = none := by
  induction m with
  | nil => simp [alRemove, alGet]
  | cons p m ih =>
      by_cases h : p.1 = k
      · simpa [alRemove, h] using ih
      · simpa [alRemove, h, alGet] using ih

theorem alGet_alRemove_ne (m : List (K × V)) (k k' : K) (h : k' ≠ k) :
    alGet (alRemove m k) k' = alGet m k' := by
  induction m with
  | nil => rfl
  | cons p m ih =>
      by_cases hp : p.1 = k
      · have hdrop : alRemove (p :: m) k = alRemove m k := by
          simp [alRemove, List.filter_cons, hp]
        rw [hdrop, ih, alGet_cons, if_neg (fun h1 => h (h1.symm.trans hp))]
      · have hkeep : alRemove (p :: m) k = p :: alRemove m k := by
          simp [alRemove, List.filter_cons, hp]
        rw [hkeep, alGet_cons, alGet_cons, ih]

theorem alInsert_self {m : List (K × V)} {k : K} {v : V} (h : alGet m k = some v) :
    alInsert m k v = m := by
  induction m with
  | nil => simp [alGet] at h
  | cons p m ih =>
      by_cases hp : p.1 = k
      · rw [alGet_cons, if_pos hp] at h
        have hv : p.2 = v := by simpa using h
        simp only [alInsert, if_pos hp]
        rw [← hp, ← hv]
      · rw [alGet_cons, if_neg hp] at h
        simp [alInsert, hp, ih h]

theorem keys_alInsert_of_isSome {m : List (K × V)} {k : K} (v : V)
    (h : (alGet m k).isSome) : (alInsert m k v).map Prod.fst = m.map Prod.fst := by
  induction m with
  | nil => simp [alGet] at h
  | cons p m ih =>
      by_cases hp : p.1 = k
      · simp [alInsert, hp]
      · rw [alGet_cons, if_neg hp] at h
        simp [alInsert, hp, ih h]

theorem keys_alInsert_of_none {m : List (K × V)} {k : K} (v : V)
    (h : alGet m k = none) : (alInsert m k v).map Prod.fst = m.map Prod.fst ++ [k] := by
  induction m with
  | nil => simp [alInsert]
  | cons p m ih =>
      by_cases hp : p.1 = k
      · rw [alGet_cons, if_pos hp] at h
        simp at h
      · rw [alGet_cons, if_neg hp] at h
        simp [alInsert, hp, ih h]

theorem mem_keys_of_alGet_isSome {m : List (K × V)} {k : K}
    (h : (alGet m k).isSome) : k ∈ m.map Prod.fst := by
  induction m with
  | nil => simp [alGet] at h
  | cons p m ih =>
      by_cases hp : p.1 = k
      · simp [hp]
      · rw [alGet_cons, if_neg hp] at h
        simp [ih h]

theorem alGet_eq_none_of_not_mem_keys {m : List (K × V)} {k : K}
    (h : k ∉ m.map Prod.fst) : alGet m k = none := by
  induction m with
  | nil => rfl
  | cons p m ih =>
      simp only [List.map_cons, List.mem_cons] at h
      push_neg at h
      rw [alGet_cons, if_neg (fun h1 => h.1 h1.symm), ih h.2]

theorem keys_alRemove_sublist (m : List (K × V)) (k : K) :
    List.Sublist ((alRemove m k).map Prod.fst) (m.map Prod.fst) :=
  (List.filter_sublist m).map Prod.fst

theorem nodup_keys_alRemove {m : List (K × V)} (k : K)
    (h : (m.map Prod.fst).Nodup) : ((alRemove m k).map Prod.fst).Nodup :=
  h.sublist (keys_alRemove_sublist m k)

theorem length_alRemove_of_isSome {m : List (K × V)} {k : K}
    (hnd : (m.map Prod.fst).Nodup) (h : (alGet m k).isSome) :
    (alRemove m k).length + 1 = m.length := by
  induction m with
  | nil => simp [alGet] at h
  | cons p m ih =>
      simp only [List.map_cons, List.nodup_cons] at hnd
      by_cases hp : p.1 = k
      · subst hp
        have hself : alRemove m p.1 = m :=
          List.filter_eq_self.2 (fun q hq => by
            have : q.1 ≠ p.1 := fun hqk => hnd.1 (hqk ▸ List.mem_map_of_mem Prod.fst hq)
            simpa using this)
        have hdrop : alRemove (p :: m) p.1 = alRemove m p.1 := by
          simp [alRemove, List.filter_cons]
        rw [hdrop, hself]
        simp
      · rw [alGet_cons, if_neg hp] at h
        have hkeep : alRemove (p :: m) k = p :: alRemove m k := by
          simp [alRemove, List.filter_cons, hp]
        rw [hkeep]
        simpa using ih hnd.2 h

end AList

theorem mem_setInsert_iff (s : List Nat) (x y : Nat) :
    y ∈ setInsert s x ↔ y ∈ s ∨ y = x := by
  by_cases h : x ∈ s
  · simp only [setInsert, if_pos h]
    constructor
    · exact Or.inl
    · rintro (hy | rfl) <;> assumption
  · simp [setInsert, if_neg h]

theorem mem_setRemove_iff (s : List Nat) (x y : Nat) :
    y ∈ setRemove s x ↔ y ∈ s ∧ y ≠ x := by
  simp [setRemove, List.mem_filter]

theorem setRemove_eq_self {s : List Nat} {x : Nat} (h : x ∉ s) :
    setRemove s x = s :=
  List.filter_eq_self.2 (fun y hy => by
    have : y ≠ x := fun hyx => h (hyx ▸ hy)
    simpa using this)

theorem nodup_setInsert {s : List Nat} (x : Nat) (h : s.Nodup) :
    (setInsert s x).Nodup := by
  by_cases hx : x ∈ s
  · simpa [setInsert, hx] using h
  · rw [setInsert, if_neg hx]
    simp [List.nodup_append, h, hx]

theorem nodup_setRemove {s : List Nat} (x : Nat) (h : s.Nodup) :
    (setRemove s x).Nodup := h.filter _

theorem length_setRemove_le (s : List Nat) (x : Nat) :
    (setRemove s x).length ≤ s.length :=
  (List.filter_sublist s).length_le

theorem Inv.unique_owner {s : PMState} (hInv : Inv s) {u u' : String}
    {set set' : List Nat} {id : Nat}
    (h : alGet s.accounts_per_user u = some set)
    (h' : alGet s.accounts_per_user u' = some set')
    (hid : id ∈ set) (hid' : id ∈ set') : u = u' := by
  obtain ⟨a, ha, hau⟩ := (hInv.set_spec u set h).2.2 id hid
  obtain ⟨a', ha', hau'⟩ := (hInv.set_spec u' set' h').2.2 id hid'
  rw [ha] at ha'
  cases ha'
  rw [← hau, ← hau']

theorem Inv_newState : Inv newState := by
  refine ⟨by simp [newState], by simp [newState], ?_, ?_, ?_⟩
  · intro u set h
    simp [newState, alGet] at h
  · intro id a h
    simp [newState, alGet] at h
  · intro id id' a a' h
    simp [newState, alGet] at h

/-! ## Specification lemmas for the codec and the lookups -/

theorem utf8Encode_bytes (cs : List Char) : Bytes (utf8Encode cs) := by
  induction cs with
  | nil => intro b hb; simp [utf8Encode] at hb
  | cons c cs ih =>
      intro b hb
      have hsplit : utf8Encode (c :: cs) = utf8EncodeNat c.toNat ++ utf8Encode cs := by
        simp [utf8Encode]
      rw [hsplit, List.mem_append] at hb
      rcases hb with hb | hb
      · have hv := char_toNat_valid c
        unfold utf8EncodeNat at hb
        split at hb
        · simp at hb; omega
        · split at hb
          · simp at hb; rcases hb with rfl | rfl <;> omega
          · split at hb
            · simp at hb; rcases hb with rfl | rfl | rfl <;> omega
            · simp at hb; rcases hb with rfl | rfl | rfl | rfl <;> omega
      · exact ih b hb

/-- The full codec round-trip used by the contract: base64-decode then
UTF-8-decode recovers the plaintext from a stored credential. -/
theorem codec_roundtrip (p : List Char) :
    (b64decode (b64encode (utf8Encode p))).bind utf8Decode = some p := by
  rw [b64_roundtrip _ (utf8Encode_bytes p)]
  simp [utf8_roundtrip]

theorem decode_credentials_of_encode (a : UserAccount) (un pw : List Char)
    (hu : a.username = b64encode (utf8Encode un))
    (hp : a.password = b64encode (utf8Encode pw)) :
    decode_credentials a = .ok { a with username := un, password := pw } := by
  unfold decode_credentials
  rw [hu, hp, b64_roundtrip _ (utf8Encode_bytes un), b64_roundtrip _ (utf8Encode_bytes pw)]
  simp [utf8_roundtrip]

theorem decode_credentials_fields {a a' : UserAccount}
    (h : decode_credentials a = .ok a') :
    a'.id = a.id ∧ a'.user_id = a.user_id ∧ a'.website = a.website := by
  unfold decode_credentials at h
  repeat' split at h
  all_goals try exact Except.noConfusion h
  cases h
  exact ⟨rfl, rfl, rfl⟩

theorem decode_credentials_encoded {a : UserAccount}
    (hu : WellEncoded a.username) (hp : WellEncoded a.password) :
    ∃ a', decode_credentials a = .ok a' := by
  obtain ⟨un, hun⟩ := hu
  obtain ⟨pw, hpw⟩ := hp
  exact ⟨_, decode_credentials_of_encode a un pw hun hpw⟩

theorem findInSet_ok_some {s : PMState} {w : List Char} {set : List Nat} {a : UserAccount}
    (h : findInSet s w set = .ok (some a)) :
    ∃ acc ∈ set, ∃ stored, alGet s.accounts_by_id acc = some stored ∧
      stored.website = w ∧ decode_credentials stored = .ok a := by
  induction set with
  | nil =>
      rw [findInSet] at h
      simp at h
  | cons acc rest ih =>
      rw [findInSet] at h
      split at h
      · exact Except.noConfusion h
      · rename_i st hga
        split at h
        · rename_i hw
          split at h
          · exact Except.noConfusion h
          · rename_i a' hdc
            have ha : a' = a := by
              have := congrArg (fun x => match x with
                | Except.ok (some y) => y
                | _ => a') h
              simpa using this
            exact ⟨acc, by simp, st, hga, hw, ha ▸ hdc⟩
        · rename_i hw
          obtain ⟨acc', hacc', st', h1, h2, h3⟩ := ih h
          exact ⟨acc', by simp [hacc'], st', h1, h2, h3⟩

theorem findInSet_ok_none {s : PMState} {w : List Char} {set : List Nat}
    (h : findInSet s w set = .ok none) :
    ∀ acc ∈ set, ∀ stored, alGet s.accounts_by_id acc = some stored →
      stored.website ≠ w := by
  induction set with
  | nil => intro acc hacc; simp at hacc
  | cons acc0 rest ih =>
      intro acc hacc stored hst
      rw [findInSet] at h
      split at h
      · exact Except.noConfusion h
      · rename_i st hga
        split at h
        · rename_i hw
          split at h
          · exact Except.noConfusion h
          · simp at h
        · rename_i hw
          rcases List.mem_cons.1 hacc with rfl | hacc'
          · rw [hga] at hst
            cases hst
            exact hw
          · exact ih h acc hacc' stored hst

theorem findInSet_total {s : PMState} {w : List Char} {set : List Nat}
    (hmem : ∀ acc ∈ set, ∃ a, alGet s.accounts_by_id acc = some a ∧
            WellEncoded a.username ∧ WellEncoded a.password) :
    ∃ r, findInSet s w set = .ok r := by
  induction set with
  | nil => exact ⟨none, rfl⟩
  | cons acc rest ih =>
      obtain ⟨a, hga, hu, hp⟩ := hmem acc (by simp)
      obtain ⟨a', hdc⟩ := decode_credentials_encoded hu hp
      by_cases hw : a.website = w
      · refine ⟨some a', ?_⟩
        rw [findInSet, hga]
        simp only [if_pos hw, hdc]
      · obtain ⟨r, hr⟩ := ih (fun x hx => hmem x (by simp [hx]))
        refine ⟨r, ?_⟩
        rw [findInSet, hga]
        simp only [if_neg hw, hr]

theorem findInSet_finds {s : PMState} {w : List Char} {set : List Nat}
    {id : Nat} {stored d : UserAccount}
    (hid : id ∈ set) (hst : alGet s.accounts_by_id id = some stored)
    (hw : stored.website = w)
    (hmem : ∀ acc ∈ set, ∃ a, alGet s.accounts_by_id acc = some a)
    (huniq : ∀ acc ∈ set, ∀ a, alGet s.accounts_by_id acc = some a →
      a.website = w → acc = id)
    (hdc : decode_credentials stored = .ok d) :
    findInSet s w set = .ok (some d) := by
  induction set with
  | nil => simp at hid
  | cons acc rest ih =>
      obtain ⟨a, hga⟩ := hmem acc (by simp)
      by_cases hweb : a.website = w
      · have hacc : acc = id := huniq acc (by simp) a hga hweb
        subst hacc
        rw [hst] at hga
        cases hga
        rw [findInSet, hst]
        simp only [if_pos hw, hdc]
      · have hne : acc ≠ id := by
          intro he
          rw [he, hst] at hga
          cases hga
          exact hweb hw
        have hid' : id ∈ rest := by
          rcases List.mem_cons.1 hid with rfl | h'
          · exact absurd rfl hne
          · exact h'
        rw [findInSet, hga]
        simp only [if_neg hweb]
        exact ih hid' (fun x hx => hmem x (by simp [hx]))
          (fun x hx b hb hbw => huniq x (by simp [hx]) b hb hbw)

theorem decodeAll_total {s : PMState} {set : List Nat}
    (hmem : ∀ acc ∈ set, ∃ a, alGet s.accounts_by_id acc = some a ∧
            WellEncoded a.username ∧ WellEncoded a.password) :
    ∃ l, decodeAll s set = .ok l := by
  induction set with
  | nil => exact ⟨[], rfl⟩
  | cons acc rest ih =>
      obtain ⟨a, hga, hu, hp⟩ := hmem acc (by simp)
      obtain ⟨a', hdc⟩ := decode_credentials_encoded hu hp
      obtain ⟨l, hl⟩ := ih (fun x hx => hmem x (by simp [hx]))
      refine ⟨a' :: l, ?_⟩
      rw [decodeAll, hga]
      simp only [hdc, hl]

theorem alGet_isSome_of_mem_keys {K V : Type} [DecidableEq K] {m : List (K × V)} {k : K}
    (h : k ∈ m.map Prod.fst) : (alGet m k).isSome := by
  induction m with
  | nil => simp at h
  | cons p m ih =>
      by_cases hp : p.1 = k
      · simp [alGet_cons, hp]
      · rw [alGet_cons, if_neg hp]
        refine ih ?_
        simp only [List.map_cons, List.mem_cons] at h
        rcases h with h | h
        · exact absurd h.symm hp
        · exact h

theorem sum_map_filter_le {α : Type} (l : List α) (p : α → Bool) (f : α → Nat) :
    ((l.filter p).map f).sum ≤ (l.map f).sum := by
  induction l with
  | nil => simp
  | cons x l ih =>
      rw [List.filter_cons]
      by_cases hx : p x
      · simpa [hx] using ih
      · rw [if_neg hx]
        simp only [List.map_cons, List.sum_cons]
        omega

theorem sum_map_alInsert_le {K V : Type} [DecidableEq K] {m : List (K × V)} {k : K}
    {v w : V} (f : K × V → Nat) (hsome : alGet m k = some w) (hle : f (k, v) ≤ f (k, w)) :
    ((alInsert m k v).map f).sum ≤ (m.map f).sum := by
  induction m with
  | nil => simp [alGet] at hsome
  | cons p m ih =>
      by_cases hp : p.1 = k
      · rw [alGet_cons, if_pos hp] at hsome
        have hw : p.2 = w := by simpa using hsome
        have hpkw : p = (k, w) := by rw [← hp, ← hw]
        simp only [alInsert, if_pos hp, List.map_cons, List.sum_cons]
        rw [hpkw]
        omega
      · rw [alGet_cons, if_neg hp] at hsome
        simp only [alInsert, if_neg hp, List.map_cons, List.sum_cons]
        have := ih hsome
        omega

/-! ## Invariant preservation -/

theorem attach_noop {s : PMState} {u : String} {set : List Nat} {id : Nat}
    (hset : alGet s.accounts_per_user u = some set) (hid : id ∈ set) :
    add_account_to_user s u id = s := by
  unfold add_account_to_user
  rw [hset]
  simp only [Option.getD_some]
  rw [setInsert, if_pos hid, alInsert_self hset]

theorem Inv_overwrite {s : PMState} (hInv : Inv s) {j : Nat} {stored : UserAccount}
    (hstored : alGet s.accounts_by_id j = some stored) (anew : UserAccount)
    (hid : anew.id = j) (huser : anew.user_id = stored.user_id)
    (hweb : anew.website = stored.website)
    (hu : WellEncoded anew.username) (hp : WellEncoded anew.password) :
    Inv { s with accounts_by_id := alInsert s.accounts_by_id j anew } := by
  constructor
  · exact hInv.apu_nodup
  · rw [keys_alInsert_of_isSome _ (by simp [hstored])]
    exact hInv.abi_nodup
  · intro u set hset
    obtain ⟨hne, hnd, hmem⟩ := hInv.set_spec u set hset
    refine ⟨hne, hnd, ?_⟩
    intro i hi
    obtain ⟨a, ha, hau⟩ := hmem i hi
    by_cases hik : i = j
    · subst hik
      rw [ha] at hstored
      cases hstored
      exact ⟨anew, by simp [alGet_alInsert_self], by rw [huser]; exact hau⟩
    · exact ⟨a, by rw [alGet_alInsert_ne _ _ _ _ hik]; exact ha, hau⟩
  · intro i a ha
    by_cases hik : i = j
    · subst hik
      rw [alGet_alInsert_self] at ha
      cases ha
      obtain ⟨hsid, hb1, hb2, ⟨set0, hset0, hmem0⟩, henc⟩ := hInv.rec_spec i stored hstored
      exact ⟨hid, hb1, hb2, ⟨set0, by rw [huser]; exact hset0, hmem0⟩, hu, hp⟩
    · rw [alGet_alInsert_ne _ _ _ _ hik] at ha
      exact hInv.rec_spec i a ha
  · intro i i' a a' ha ha' huser' hweb'
    by_cases h1 : i = j <;> by_cases h2 : i' = j
    · rw [h1, h2]
    · subst h1
      rw [alGet_alInsert_self] at ha
      cases ha
      rw [alGet_alInsert_ne _ _ _ _ h2] at ha'
      exact hInv.unique_site i i' stored a' hstored ha'
        (huser ▸ huser') (hweb ▸ hweb')
    · subst h2
      rw [alGet_alInsert_self] at ha'
      cases ha'
      rw [alGet_alInsert_ne _ _ _ _ h1] at ha
      exact (hInv.unique_site i' i stored a hstored ha
        (huser ▸ huser'.symm) (hweb ▸ hweb'.symm)).symm
    · rw [alGet_alInsert_ne _ _ _ _ h1] at ha
      rw [alGet_alInsert_ne _ _ _ _ h2] at ha'
      exact hInv.unique_site i i' a a' ha ha' huser' hweb'

theorem setInsert_ne_nil (s : List Nat) (x : Nat) : setInsert s x ≠ [] := by
  by_cases h : x ∈ s
  · rw [setInsert, if_pos h]
    rintro rfl
    simp at h
  · rw [setInsert, if_neg h]
    simp

theorem Inv_create {s : PMState} (hInv : Inv s) (u : String) (w un pw : List Char)
    (hno : ∀ i a, alGet s.accounts_by_id i = some a → a.user_id = u → a.website ≠ w) :
    Inv { accounts_per_user :=
            alInsert s.accounts_per_user u
              (setInsert ((alGet s.accounts_per_user u).getD []) (s.account_id_counter + 1)),
          accounts_by_id :=
            alInsert s.accounts_by_id (s.account_id_counter + 1)
              ⟨s.account_id_counter + 1, u, w,
               b64encode (utf8Encode un), b64encode (utf8Encode pw)⟩,
          account_id_counter := s.account_id_counter + 1 } := by
  have hfresh : alGet s.accounts_by_id (s.account_id_counter + 1) = none := by
    cases hget : alGet s.accounts_by_id (s.account_id_counter + 1) with
    | none => rfl
    | some a =>
        have := (hInv.rec_spec _ _ hget).2.2.1
        omega
  have hfresh_set : ∀ u' set, alGet s.accounts_per_user u' = some set →
      (s.account_id_counter + 1) ∉ set := by
    intro u' set hset hmem
    obtain ⟨a, ha, _⟩ := (hInv.set_spec u' set hset).2.2 _ hmem
    rw [hfresh] at ha
    exact Option.noConfusion ha
  constructor
  case apu_nodup =>
    cases hcase : alGet s.accounts_per_user u with
    | some set0 =>
        rw [keys_alInsert_of_isSome _ (by simp [hcase])]
        exact hInv.apu_nodup
    | none =>
        rw [keys_alInsert_of_none _ hcase]
        refine List.Nodup.append hInv.apu_nodup (List.nodup_singleton u) ?_
        intro x hx hx'
        have hxu : x = u := by simpa using hx'
        subst hxu
        have := alGet_isSome_of_mem_keys hx
        rw [hcase] at this
        simp at this
  case abi_nodup =>
    rw [keys_alInsert_of_none _ hfresh]
    refine List.Nodup.append hInv.abi_nodup (List.nodup_singleton _) ?_
    intro x hx hx'
    have hxc : x = s.account_id_counter + 1 := by simpa using hx'
    subst hxc
    have := alGet_isSome_of_mem_keys hx
    rw [hfresh] at this
    simp at this
  case set_spec =>
    intro u' set' hset'
    simp only at hset'
    by_cases hu' : u' = u
    · subst hu'
      rw [alGet_alInsert_self] at hset'
      have hset'eq := (Option.some.inj hset').symm
      subst hset'eq
      refine ⟨setInsert_ne_nil _ _, ?_, ?_⟩
      · cases hcase : alGet s.accounts_per_user u' with
        | some set0 =>
            exact nodup_setInsert _ (hInv.set_spec u' set0 hcase).2.1
        | none =>
            exact nodup_setInsert _ (List.nodup_nil)
      · intro i hi
        rw [mem_setInsert_iff] at hi
        rcases hi with hi | rfl
        · cases hcase : alGet s.accounts_per_user u' with
          | some set0 =>
              rw [hcase] at hi
              obtain ⟨a, ha, hau⟩ := (hInv.set_spec u' set0 hcase).2.2 i hi
              have hine : i ≠ s.account_id_counter + 1 := by
                intro hcontr
                exact hfresh_set u' set0 hcase (hcontr ▸ hi)
              refine ⟨a, ?_, hau⟩
              simp only
              rw [alGet_alInsert_ne _ _ _ _ hine]
              exact ha
          | none =>
              rw [hcase] at hi
              simp at hi
        · exact ⟨⟨s.account_id_counter + 1, u', w, b64encode (utf8Encode un),
            b64encode (utf8Encode pw)⟩, alGet_alInsert_self _ _ _, rfl⟩
    · rw [alGet_alInsert_ne _ _ _ _ hu'] at hset'
      obtain ⟨hne, hnd, hmem⟩ := hInv.set_spec u' set' hset'
      refine ⟨hne, hnd, ?_⟩
      intro i hi
      obtain ⟨a, ha, hau⟩ := hmem i hi
      have hine : i ≠ s.account_id_counter + 1 := by
        intro hcontr
        exact hfresh_set u' set' hset' (hcontr ▸ hi)
      refine ⟨a, ?_, hau⟩
      simp only
      rw [alGet_alInsert_ne _ _ _ _ hine]
      exact ha
  case rec_spec =>
    intro i a ha
    simp only at ha ⊢
    by_cases hik : i = s.account_id_counter + 1
    · subst hik
      rw [alGet_alInsert_self] at ha
      have haeq := (Option.some.inj ha).symm
      subst haeq
      refine ⟨rfl, by omega, by omega, ?_, ⟨un, rfl⟩, ⟨pw, rfl⟩⟩
      refine ⟨_, alGet_alInsert_self _ _ _, ?_⟩
      rw [mem_setInsert_iff]
      exact Or.inr rfl
    · rw [alGet_alInsert_ne _ _ _ _ hik] at ha
      obtain ⟨hid, hb1, hb2, ⟨set0, hset0, hmem0⟩, hwe⟩ := hInv.rec_spec i a ha
      refine ⟨hid, hb1, by omega, ?_, hwe⟩
      by_cases hau : a.user_id = u
      · rw [hau] at hset0 ⊢
        refine ⟨_, alGet_alInsert_self _ _ _, ?_⟩
        rw [hset0]
        simp only [Option.getD_some]
        rw [mem_setInsert_iff]
        exact Or.inl hmem0
      · refine ⟨set0, ?_, hmem0⟩
        rw [alGet_alInsert_ne _ _ _ _ hau]
        exact hset0
  case unique_site =>
    intro i i' a a' ha ha' hus hws
    simp only at ha ha'
    by_cases h1 : i = s.account_id_counter + 1 <;> by_cases h2 : i' = s.account_id_counter + 1
    · rw [h1, h2]
    · rw [h1, alGet_alInsert_self] at ha
      have haeq := (Option.some.inj ha).symm
      subst haeq
      rw [alGet_alInsert_ne _ _ _ _ h2] at ha'
      exact absurd hws.symm (hno i' a' ha' hus.symm)
    · rw [h2, alGet_alInsert_self] at ha'
      have haeq := (Option.some.inj ha').symm
      subst haeq
      rw [alGet_alInsert_ne _ _ _ _ h1] at ha
      exact absurd hws (hno i a ha hus)
    · rw [alGet_alInsert_ne _ _ _ _ h1] at ha
      rw [alGet_alInsert_ne _ _ _ _ h2] at ha'
      exact hInv.unique_site i i' a a' ha ha' hus hws

theorem Inv_detach_delete {s : PMState} (hInv : Inv s) {u : String} {set : List Nat}
    {j : Nat} (hset : alGet s.accounts_per_user u = some set) (hj : j ∈ set) :
    Inv { accounts_per_user :=
            if (setRemove set j).isEmpty then alRemove s.accounts_per_user u
            else alInsert s.accounts_per_user u (setRemove set j),
          accounts_by_id := alRemove s.accounts_by_id j,
          account_id_counter := s.account_id_counter } := by
  have howner : ∀ u' set', alGet s.accounts_per_user u' = some set' → j ∈ set' → u' = u :=
    fun u' set' hset' hj' => hInv.unique_owner hset' hset hj' hj
  by_cases hemp : (setRemove set j).isEmpty
  all_goals constructor
  case pos.apu_nodup =>
    rw [if_pos hemp]
    exact nodup_keys_alRemove u hInv.apu_nodup
  case pos.abi_nodup =>
    exact nodup_keys_alRemove j hInv.abi_nodup
  case pos.set_spec =>
    intro u' set' hset'
    rw [if_pos hemp] at hset'
    simp only at hset'
    by_cases hu' : u' = u
    · rw [hu', alGet_alRemove_self] at hset'
      exact Option.noConfusion hset'
    · rw [alGet_alRemove_ne _ _ _ hu'] at hset'
      obtain ⟨hne, hnd, hmem⟩ := hInv.set_spec u' set' hset'
      refine ⟨hne, hnd, ?_⟩
      intro i hi
      obtain ⟨a, ha, hau⟩ := hmem i hi
      have hij : i ≠ j := by
        intro hcontr
        exact hu' (howner u' set' hset' (hcontr ▸ hi))
      refine ⟨a, ?_, hau⟩
      simp only
      rw [alGet_alRemove_ne _ _ _ hij]
      exact ha
  case pos.rec_spec =>
    intro i a ha
    simp only at ha ⊢
    by_cases hij : i = j
    · rw [hij, alGet_alRemove_self] at ha
      exact Option.noConfusion ha
    · rw [alGet_alRemove_ne _ _ _ hij] at ha
      obtain ⟨hid, hb1, hb2, ⟨set0, hset0, hmem0⟩, hwe⟩ := hInv.rec_spec i a ha
      refine ⟨hid, hb1, hb2, ?_, hwe⟩
      by_cases hau : a.user_id = u
      · rw [hau] at hset0
        rw [hset] at hset0
        have hseteq := Option.some.inj hset0
        subst hseteq
        have : i ∈ setRemove set j := (mem_setRemove_iff _ _ _).2 ⟨hmem0, hij⟩
        rw [List.isEmpty_iff] at hemp
        rw [hemp] at this
        simp at this
      · refine ⟨set0, ?_, hmem0⟩
        rw [if_pos hemp]
        rw [alGet_alRemove_ne _ _ _ hau]
        exact hset0
  case pos.unique_site =>
    intro i i' a a' ha ha' hus hws
    simp only at ha ha'
    by_cases h1 : i = j
    · rw [h1, alGet_alRemove_self] at ha
      exact Option.noConfusion ha
    · by_cases h2 : i' = j
      · rw [h2, alGet_alRemove_self] at ha'
        exact Option.noConfusion ha'
      · rw [alGet_alRemove_ne _ _ _ h1] at ha
        rw [alGet_alRemove_ne _ _ _ h2] at ha'
        exact hInv.unique_site i i' a a' ha ha' hus hws
  case neg.apu_nodup =>
    rw [if_neg hemp]
    rw [keys_alInsert_of_isSome _ (by simp [hset])]
    exact hInv.apu_nodup
  case neg.abi_nodup =>
    exact nodup_keys_alRemove j hInv.abi_nodup
  case neg.set_spec =>
    intro u' set' hset'
    rw [if_neg hemp] at hset'
    simp only at hset'
    by_cases hu' : u' = u
    · subst hu'
      rw [alGet_alInsert_self] at hset'
      have hseteq := (Option.some.inj hset').symm
      subst hseteq
      refine ⟨by simpa [List.isEmpty_iff] using hemp,
        nodup_setRemove _ (hInv.set_spec u' set hset).2.1, ?_⟩
      intro i hi
      rw [mem_setRemove_iff] at hi
      obtain ⟨a, ha, hau⟩ := (hInv.set_spec u' set hset).2.2 i hi.1
      refine ⟨a, ?_, hau⟩
      simp only
      rw [alGet_alRemove_ne _ _ _ hi.2]
      exact ha
    · rw [alGet_alInsert_ne _ _ _ _ hu'] at hset'
      obtain ⟨hne, hnd, hmem⟩ := hInv.set_spec u' set' hset'
      refine ⟨hne, hnd, ?_⟩
      intro i hi
      obtain ⟨a, ha, hau⟩ := hmem i hi
      have hij : i ≠ j := by
        intro hcontr
        exact hu' (howner u' set' hset' (hcontr ▸ hi))
      refine ⟨a, ?_, hau⟩
      simp only
      rw [alGet_alRemove_ne _ _ _ hij]
      exact ha
  case neg.rec_spec =>
    intro i a ha
    simp only at ha ⊢
    by_cases hij : i = j
    · rw [hij, alGet_alRemove_self] at ha
      exact Option.noConfusion ha
    · rw [alGet_alRemove_ne _ _ _ hij] at ha
      obtain ⟨hid, hb1, hb2, ⟨set0, hset0, hmem0⟩, hwe⟩ := hInv.rec_spec i a ha
      refine ⟨hid, hb1, hb2, ?_, hwe⟩
      rw [if_neg hemp]
      by_cases hau : a.user_id = u
      · rw [hau] at hset0 ⊢
        rw [hset] at hset0
        have hseteq := Option.some.inj hset0
        subst hseteq
        exact ⟨_, alGet_alInsert_self _ _ _, (mem_setRemove_iff _ _ _).2 ⟨hmem0, hij⟩⟩
      · refine ⟨set0, ?_, hmem0⟩
        rw [alGet_alInsert_ne _ _ _ _ hau]
        exact hset0
  case neg.unique_site =>
    intro i i' a a' ha ha' hus hws
    simp only at ha ha'
    by_cases h1 : i = j
    · rw [h1, alGet_alRemove_self] at ha
      exact Option.noConfusion ha
    · by_cases h2 : i' = j
      · rw [h2, alGet_alRemove_self] at ha'
        exact Option.noConfusion ha'
      · rw [alGet_alRemove_ne _ _ _ h1] at ha
        rw [alGet_alRemove_ne _ _ _ h2] at ha'
        exact hInv.unique_site i i' a a' ha ha' hus hws

theorem remove_account_from_user_none {s : PMState} {u : String} (id : Nat)
    (hset : alGet s.accounts_per_user u = none) :
    remove_account_from_user s u id = .error .InvalidUser := by
  simp only [remove_account_from_user, hset]

theorem remove_account_from_user_some {s : PMState} {u : String} {set : List Nat} (id : Nat)
    (hset : alGet s.accounts_per_user u = some set) :
    remove_account_from_user s u id =
      .ok ({ s with accounts_per_user :=
              if (setRemove set id).isEmpty then alRemove s.accounts_per_user u
              else alInsert s.accounts_per_user u (setRemove set id) },
           set.contains id) := by
  simp only [remove_account_from_user, hset]
  by_cases he : (setRemove set id).isEmpty
  · simp [he]
  · simp [he]

theorem mkAccount_id (i : Nat) (u : String) (w un pw : List Char) :
    (mkAccount i u w un pw).id = i := rfl

theorem remove_account_from_user_eq (s : PMState) (u : String) (id : Nat) :
    remove_account_from_user s u id =
      match alGet s.accounts_per_user u with
      | none => .error .InvalidUser
      | some set =>
          .ok ({ s with accounts_per_user :=
                  if (setRemove set id).isEmpty then alRemove s.accounts_per_user u
                  else alInsert s.accounts_per_user u (setRemove set id) },
               set.contains id) := by
  unfold remove_account_from_user
  cases h : alGet s.accounts_per_user u with
  | none => rfl
  | some set =>
      by_cases he : (setRemove set id).isEmpty
      · simp [he]
      · simp [he]

theorem attach_mem (s : PMState) (u : String) (id : Nat) :
    ∃ set, alGet (add_account_to_user s u id).accounts_per_user u = some set ∧ id ∈ set := by
  unfold add_account_to_user
  refine ⟨_, alGet_alInsert_self _ _ _, ?_⟩
  rw [mem_setInsert_iff]
  exact Or.inr rfl

theorem get_one_spec_some {s : PMState} {u : String} {w : List Char} {a : UserAccount}
    (hInv : Inv s) (h : get_one_account s u w = .ok (some a)) :
    ∃ set stored, alGet s.accounts_per_user u = some set ∧ a.id ∈ set ∧
      alGet s.accounts_by_id a.id = some stored ∧ stored.website = w ∧
      stored.user_id = u ∧ stored.id = a.id ∧ a.user_id = u ∧ a.website = w ∧
      decode_credentials stored = .ok a := by
  unfold get_one_account at h
  split at h
  · rename_i set hmap
    obtain ⟨acc, hacc, stored, hst, hw, hdc⟩ := findInSet_ok_some h
    obtain ⟨hfid, hfu, hfw⟩ := decode_credentials_fields hdc
    have hsid := (hInv.rec_spec acc stored hst).1
    have hau : stored.user_id = u := by
      obtain ⟨a0, ha0, hau0⟩ := (hInv.set_spec u set hmap).2.2 acc hacc
      rw [hst] at ha0
      cases ha0
      exact hau0
    have haid : a.id = acc := hfid.trans hsid
    refine ⟨set, stored, hmap, haid ▸ hacc, haid ▸ hst, hw, hau,
      by rw [haid, hsid], hfu.trans hau, hfw.trans hw, hdc⟩
  · simp at h

theorem get_one_spec_none {s : PMState} {u : String} {w : List Char}
    (h : get_one_account s u w = .ok none) :
    ∀ set, alGet s.accounts_per_user u = some set →
      ∀ acc ∈ set, ∀ stored, alGet s.accounts_by_id acc = some stored →
        stored.website ≠ w := by
  unfold get_one_account at h
  split at h
  · rename_i set' hmap
    intro set hset
    rw [hmap] at hset
    cases hset
    exact findInSet_ok_none h
  · rename_i hmap
    intro set hset
    rw [hmap] at hset
    exact Option.noConfusion hset

theorem no_site_of_get_one_none {s : PMState} {u : String} {w : List Char}
    (hInv : Inv s) (h : get_one_account s u w = .ok none) :
    ∀ i a, alGet s.accounts_by_id i = some a → a.user_id = u → a.website ≠ w := by
  intro i a ha hau hw
  obtain ⟨set0, hset0, hmem0⟩ := (hInv.rec_spec i a ha).2.2.2.1
  rw [hau] at hset0
  exact get_one_spec_none h set0 hset0 i hmem0 a ha hw

theorem Inv_add_account_core (env : Env) (init : Nat) (s1 : PMState) (u : String)
    (w un pw : List Char) (id : Nat)
    (hInv3 : Inv (add_account_to_user
      { s1 with accounts_by_id := alInsert s1.accounts_by_id id (mkAccount id u w un pw) }
      u id)) :
    Inv (add_account_core env init s1 u w un pw id).st := by
  obtain ⟨set3, hset3, hid3⟩ := attach_mem
    { s1 with accounts_by_id := alInsert s1.accounts_by_id id (mkAccount id u w un pw) } u id
  unfold add_account_core
  simp only
  split
  · exact hInv3
  · split
    · exact hInv3
    · split
      · simp only [mkAccount_id, remove_account_from_user_eq, hset3]
        exact Inv_detach_delete hInv3 hset3 hid3
      · exact hInv3

theorem Inv_add (env : Env) (s : PMState) (u : String) (w un pw : List Char)
    (hInv : Inv s) : Inv (add_account env s u w un pw).st := by
  unfold add_account
  split
  · exact hInv
  · split
    · exact hInv
    · rename_i a hfound
      obtain ⟨set, stored, hmap, hidset, hst, hwweb, hsuser, hsid, hauser, haweb, hdc⟩ :=
        get_one_spec_some hInv hfound
      refine Inv_add_account_core env _ s u w un pw a.id ?_
      have hInv2 : Inv { s with
          accounts_by_id := alInsert s.accounts_by_id a.id (mkAccount a.id u w un pw) } :=
        Inv_overwrite hInv hst _ rfl (by simpa [mkAccount] using hsuser.symm)
          (by simpa [mkAccount] using hwweb.symm) ⟨un, rfl⟩ ⟨pw, rfl⟩
      have hnoop := attach_noop (s := { s with
          accounts_by_id := alInsert s.accounts_by_id a.id (mkAccount a.id u w un pw) })
        (show alGet _ u = some set from hmap) hidset
      rw [hnoop]
      exact hInv2
    · rename_i hfound
      split
      · refine Inv_add_account_core env _ _ u w un pw _ ?_
        have := Inv_create hInv u w un pw (no_site_of_get_one_none hInv hfound)
        exact this
      · exact hInv

theorem Inv_remove (env : Env) (s : PMState) (u : String) (id : Nat)
    (hInv : Inv s) : Inv (remove_account env s u id).st := by
  unfold remove_account
  cases hmap : alGet s.accounts_per_user u with
  | none =>
      rw [remove_account_from_user_none id hmap]
      exact hInv
  | some set =>
      rw [remove_account_from_user_some id hmap]
      simp only
      by_cases hmem : set.contains id
      · simp only [hmem, Bool.not_true, Bool.false_eq_true, if_false]
        have hid : id ∈ set := by simpa using hmem
        have hdd := Inv_detach_delete hInv hmap hid
        by_cases hemp : (setRemove set id).isEmpty
        · simp only [if_pos hemp] at hdd ⊢
          split
          · exact hdd
          · split
            · exact hdd
            · exact hdd
        · simp only [if_neg hemp] at hdd ⊢
          split
          · exact hdd
          · split
            · exact hdd
            · exact hdd
      · simp only [hmem, Bool.not_false, if_true]
        have hid : id ∉ set := by simpa using hmem
        have hsr : setRemove set id = set := setRemove_eq_self hid
        have hne : ¬ (setRemove set id).isEmpty := by
          rw [hsr, List.isEmpty_iff]
          exact (hInv.set_spec u set hmap).1
        rw [if_neg hne, hsr, alInsert_self hmap]
        exact hInv

/-- Every reachable state satisfies the invariant. -/
theorem reachable_inv {s : PMState} (h : Reachable s) : Inv s := by
  induction h with
  | init => exact Inv_newState
  | add env s u w un pw _ ih => exact Inv_add env s u w un pw ih
  | remove env s u id _ ih => exact Inv_remove env s u id ih

theorem storageUsage_detach_le (s : PMState) (u : String) (id : Nat) (set : List Nat)
    (hmap : alGet s.accounts_per_user u = some set) :
    storageUsage (detachState s u id set) ≤ storageUsage s := by
  unfold detachState storageUsage
  simp only
  have h1 : ((alRemove s.accounts_by_id id).map (fun kv => 16 + recordBytes kv.2)).sum ≤
      (s.accounts_by_id.map (fun kv => 16 + recordBytes kv.2)).sum := by
    unfold alRemove
    exact sum_map_filter_le _ _ _
  by_cases hemp : (setRemove set id).isEmpty
  · rw [if_pos hemp]
    have h2 : ((alRemove s.accounts_per_user u).map
        (fun kv => 20 + kv.1.length + 16 * kv.2.length)).sum ≤
        (s.accounts_per_user.map (fun kv => 20 + kv.1.length + 16 * kv.2.length)).sum := by
      unfold alRemove
      exact sum_map_filter_le _ _ _
    omega
  · rw [if_neg hemp]
    have h2 : ((alInsert s.accounts_per_user u (setRemove set id)).map
        (fun kv => 20 + kv.1.length + 16 * kv.2.length)).sum ≤
        (s.accounts_per_user.map (fun kv => 20 + kv.1.length + 16 * kv.2.length)).sum := by
      refine sum_map_alInsert_le _ hmap ?_
      have := length_setRemove_le set id
      simp only
      omega
    omega

theorem contains_of_mem {set : List Nat} {id : Nat} (hid : id ∈ set) :
    set.contains id = true := by
  simpa using hid

theorem remove_account_st {env : Env} {s : PMState} {u : String} {id : Nat} {set : List Nat}
    (hmap : alGet s.accounts_per_user u = some set) (hid : id ∈ set) :
    (remove_account env s u id).st = detachState s u id set := by
  unfold remove_account
  rw [remove_account_from_user_some id hmap]
  simp only [contains_of_mem hid, Bool.not_true, Bool.false_eq_true, if_false]
  unfold detachState
  by_cases hemp : (setRemove set id).isEmpty
  · simp only [if_pos hemp]
    split
    · rfl
    · split <;> rfl
  · simp only [if_neg hemp]
    split
    · rfl
    · split <;> rfl

theorem remove_account_ok {env : Env} {s : PMState} {u : String} {id : Nat} {set : List Nat}
    (hmap : alGet s.accounts_per_user u = some set) (hid : id ∈ set)
    (hnof : env.storage_byte_cost *
      (storageUsage s - storageUsage (detachState s u id set)) ≤ U128MAX) :
    remove_account env s u id =
      ⟨detachState s u id set,
       if env.storage_byte_cost * (storageUsage s - storageUsage (detachState s u id set)) > 1
       then [env.storage_byte_cost * (storageUsage s - storageUsage (detachState s u id set))]
       else [],
       none⟩ := by
  have hle := storageUsage_detach_le s u id set hmap
  unfold remove_account
  rw [remove_account_from_user_some id hmap]
  simp only [contains_of_mem hid, Bool.not_true, Bool.false_eq_true, if_false]
  simp only [detachState] at hle hnof ⊢
  by_cases hemp : (setRemove set id).isEmpty
  · simp only [if_pos hemp] at hle hnof ⊢
    rw [if_neg (Nat.not_lt.2 hle), if_neg (Nat.not_lt.2 hnof)]
  · simp only [if_neg hemp] at hle hnof ⊢
    rw [if_neg (Nat.not_lt.2 hle), if_neg (Nat.not_lt.2 hnof)]

/-! ## Behaviour of `add_account` -/

theorem add_account_core_out (env : Env) (init : Nat) (s1 : PMState) (u : String)
    (w un pw : List Char) (id : Nat) {S : PMState}
    (hS : add_account_to_user { s1 with
      accounts_by_id := alInsert s1.accounts_by_id id (mkAccount id u w un pw) } u id = S) :
    (storageUsage S < init ∧
       add_account_core env init s1 u w un pw id = ⟨S, [], some .ArithmeticOverflow⟩) ∨
    (init ≤ storageUsage S ∧ U128MAX < env.storage_byte_cost * (storageUsage S - init) ∧
       add_account_core env init s1 u w un pw id = ⟨S, [], some .ArithmeticOverflow⟩) ∨
    (init ≤ storageUsage S ∧ env.storage_byte_cost * (storageUsage S - init) ≤ U128MAX ∧
       env.attached_deposit < env.storage_byte_cost * (storageUsage S - init) ∧
       (add_account_core env init s1 u w un pw id).err =
         some (.InsufficientPayment (env.storage_byte_cost * (storageUsage S - init)))) ∨
    (init ≤ storageUsage S ∧ env.storage_byte_cost * (storageUsage S - init) ≤ U128MAX ∧
       env.storage_byte_cost * (storageUsage S - init) ≤ env.attached_deposit ∧
       add_account_core env init s1 u w un pw id =
         ⟨S, if 1 < env.attached_deposit - env.storage_byte_cost * (storageUsage S - init)
             then [env.attached_deposit - env.storage_byte_cost * (storageUsage S - init)]
             else [], none⟩) := by
  obtain ⟨set3, hset3, hid3⟩ := attach_mem { s1 with
    accounts_by_id := alInsert s1.accounts_by_id id (mkAccount id u w un pw) } u id
  rw [hS] at hset3
  unfold add_account_core
  simp only [mkAccount_id, hS]
  by_cases h1 : storageUsage S < init
  · rw [if_pos h1]
    exact Or.inl ⟨h1, rfl⟩
  · rw [if_neg h1]
    by_cases h2 : env.storage_byte_cost * (storageUsage S - init) > U128MAX
    · rw [if_pos h2]
      exact Or.inr (Or.inl ⟨Nat.le_of_not_lt h1, h2, rfl⟩)
    · rw [if_neg h2]
      by_cases h3 : env.storage_byte_cost * (storageUsage S - init) > env.attached_deposit
      · rw [if_pos h3]
        refine Or.inr (Or.inr (Or.inl ⟨Nat.le_of_not_lt h1, Nat.le_of_not_lt h2, h3, ?_⟩))
        simp only [remove_account_from_user_eq, hset3]
      · rw [if_neg h3]
        exact Or.inr (Or.inr (Or.inr
          ⟨Nat.le_of_not_lt h1, Nat.le_of_not_lt h2, Nat.le_of_not_lt h3, rfl⟩))

theorem add_account_core_success {env : Env} {init : Nat} {s1 : PMState} {u : String}
    {w un pw : List Char} {id : Nat} {S : PMState}
    (hS : add_account_to_user { s1 with
      accounts_by_id := alInsert s1.accounts_by_id id (mkAccount id u w un pw) } u id = S)
    (hsucc : (add_account_core env init s1 u w un pw id).err = none) :
    (add_account_core env init s1 u w un pw id).st = S ∧
    init ≤ storageUsage S ∧
    env.storage_byte_cost * (storageUsage S - init) ≤ env.attached_deposit ∧
    (add_account_core env init s1 u w un pw id).transfers =
      (if 1 < env.attached_deposit - env.storage_byte_cost * (storageUsage S - init)
       then [env.attached_deposit - env.storage_byte_cost * (storageUsage S - init)]
       else []) := by
  rcases add_account_core_out env init s1 u w un pw id hS with
    ⟨h1, heq⟩ | ⟨h1, h2, heq⟩ | ⟨h1, h2, h3, herr⟩ | ⟨h1, h2, h3, heq⟩
  · rw [heq] at hsucc
    simp at hsucc
  · rw [heq] at hsucc
    simp at hsucc
  · rw [herr] at hsucc
    simp at hsucc
  · rw [heq]
    exact ⟨rfl, h1, h3, rfl⟩

theorem get_one_attach_state {s1 : PMState} {u : String} {w un pw : List Char} {id : Nat}
    {S : PMState}
    (hS : add_account_to_user { s1 with
      accounts_by_id := alInsert s1.accounts_by_id id (mkAccount id u w un pw) } u id = S)
    (hInvS : Inv S) :
    get_one_account S u w = .ok (some ⟨id, u, w, un, pw⟩) := by
  obtain ⟨set3, hset3, hid3⟩ := attach_mem { s1 with
    accounts_by_id := alInsert s1.accounts_by_id id (mkAccount id u w un pw) } u id
  rw [hS] at hset3
  have hrec : alGet S.accounts_by_id id = some (mkAccount id u w un pw) := by
    rw [← hS]
    unfold add_account_to_user
    simp only
    exact alGet_alInsert_self _ _ _
  have hdc : decode_credentials (mkAccount id u w un pw) = .ok ⟨id, u, w, un, pw⟩ :=
    decode_credentials_of_encode _ un pw rfl rfl
  have hmem : ∀ acc ∈ set3, ∃ a, alGet S.accounts_by_id acc = some a := by
    intro acc hacc
    obtain ⟨a, ha, _⟩ := (hInvS.set_spec u set3 hset3).2.2 acc hacc
    exact ⟨a, ha⟩
  have huniq : ∀ acc ∈ set3, ∀ a, alGet S.accounts_by_id acc = some a →
      a.website = w → acc = id := by
    intro acc hacc a ha haw
    obtain ⟨a0, ha0, hau0⟩ := (hInvS.set_spec u set3 hset3).2.2 acc hacc
    rw [ha] at ha0
    cases ha0
    exact hInvS.unique_site acc id a (mkAccount id u w un pw) ha hrec hau0 haw
  unfold get_one_account
  simp only [hset3]
  exact findInSet_finds hid3 hrec rfl hmem huniq hdc

theorem decodeAll_mem {s : PMState} {set : List Nat} {l : List UserAccount}
    (h : decodeAll s set = .ok l) {i : Nat} {a d : UserAccount}
    (hi : i ∈ set) (ha : alGet s.accounts_by_id i = some a)
    (hdc : decode_credentials a = .ok d) : d ∈ l := by
  induction set generalizing l with
  | nil => simp at hi
  | cons x rest ih =>
      rw [decodeAll] at h
      split at h
      · exact Except.noConfusion h
      · rename_i acc hacc
        split at h
        · exact Except.noConfusion h
        · rename_i a' hdc'
          split at h
          · exact Except.noConfusion h
          · rename_i l' hl'
            have hll : l = a' :: l' := by
              have := congrArg (fun x => match x with
                | Except.ok y => y
                | _ => l) h
              simpa using this.symm
            subst hll
            rcases List.mem_cons.1 hi with rfl | hi'
            · rw [ha] at hacc
              cases hacc
              rw [hdc] at hdc'
              cases hdc'
              exact List.mem_cons_self _ _
            · exact List.mem_cons_of_mem _ (ih hl' hi')

theorem add_account_success_st (env : Env) (s : PMState) (u : String) (w un pw : List Char)
    (hsucc : (add_account env s u w un pw).err = none) :
    ∃ id s1,
      ((∃ a, get_one_account s u w = .ok (some a) ∧ id = a.id ∧ s1 = s) ∨
       (get_one_account s u w = .ok none ∧ id = s.account_id_counter + 1 ∧
        s1 = { s with account_id_counter := s.account_id_counter + 1 })) ∧
      1 ≤ env.attached_deposit ∧
      add_account env s u w un pw =
        add_account_core env (storageUsage s) s1 u w un pw id := by
  unfold add_account at hsucc ⊢
  split at hsucc
  · simp at hsucc
  · rename_i hdep
    split at hsucc
    · simp at hsucc
    · rename_i a heq
      refine ⟨a.id, s, Or.inl ⟨a, heq, rfl, rfl⟩, by omega, ?_⟩
      rw [if_neg hdep]
    · rename_i heq
      split at hsucc
      · rename_i hcnt
        refine ⟨s.account_id_counter + 1,
          { s with account_id_counter := s.account_id_counter + 1 },
          Or.inr ⟨heq, rfl, rfl⟩, by omega, ?_⟩
        rw [if_neg hdep, if_pos hcnt]
      · simp at hsucc

/-! ## Claims -/

/-- C4: in every state reachable from a fresh instance via the public
operations, every account id in any user's id set has a record in the
account table whose `user_id` equals that user, every table record's id
is contained in its owner's set, and no account id appears in more than
one user's set. -/
theorem C4_referential_integrity (s : PMState) (h : Reachable s) :
    (∀ u set, alGet s.accounts_per_user u = some set →
       ∀ id ∈ set, ∃ a, alGet s.accounts_by_id id = some a ∧ a.user_id = u) ∧
    (∀ id a, alGet s.accounts_by_id id = some a →
       ∃ set, alGet s.accounts_per_user a.user_id = some set ∧ id ∈ set) ∧
    (∀ u u' set set' id, alGet s.accounts_per_user u = some set →
       alGet s.accounts_per_user u' = some set' → id ∈ set → id ∈ set' → u = u') := by
  have hInv := reachable_inv h
  exact ⟨fun u set hs => (hInv.set_spec u set hs).2.2,
         fun id a ha => (hInv.rec_spec id a ha).2.2.2.1,
         fun u u' set set' id h1 h2 m1 m2 => hInv.unique_owner h1 h2 m1 m2⟩

/-- Witness for C4 at the concrete reachable state obtained by one
successful `add_account` on a fresh instance. -/
theorem C4_witness :
    (∀ u set, alGet (add_account ⟨1000, 1⟩ newState "u" ['w'] ['a'] ['b']).st.accounts_per_user
        u = some set →
       ∀ id ∈ set, ∃ a, alGet (add_account ⟨1000, 1⟩ newState "u" ['w'] ['a'] ['b']).st.accounts_by_id
         id = some a ∧ a.user_id = u) ∧
    (∀ id a, alGet (add_account ⟨1000, 1⟩ newState "u" ['w'] ['a'] ['b']).st.accounts_by_id
        id = some a →
       ∃ set, alGet (add_account ⟨1000, 1⟩ newState "u" ['w'] ['a'] ['b']).st.accounts_per_user
         a.user_id = some set ∧ id ∈ set) ∧
    (∀ u u' set set' id,
       alGet (add_account ⟨1000, 1⟩ newState "u" ['w'] ['a'] ['b']).st.accounts_per_user
         u = some set →
       alGet (add_account ⟨1000, 1⟩ newState "u" ['w'] ['a'] ['b']).st.accounts_per_user
         u' = some set' → id ∈ set → id ∈ set' → u = u') :=
  C4_referential_integrity _ (Reachable.add ⟨1000, 1⟩ newState "u" ['w'] ['a'] ['b'] Reachable.init)

/-- C5: for a user with no index entry, `get_one_account` returns the
absent value and never errors, while `get_accounts_per_user` for the
same user fails with the unknown-user error (`expect("Invalid user")`),
in every state. -/
theorem C5_unknown_user_asymmetry (s : PMState) (u : String) (w : List Char)
    (h : alGet s.accounts_per_user u = none) :
    get_one_account s u w = .ok none ∧
    get_accounts_per_user s u = .error .InvalidUser := by
  constructor
  · unfold get_one_account
    simp only [h]
  · unfold get_accounts_per_user
    simp only [h]

/-- Witness for C5: the fresh instance has no entry for `"u"`. -/
theorem C5_witness :
    alGet newState.accounts_per_user "u" = none ∧
    (get_one_account newState "u" ['w'] = .ok none ∧
     get_accounts_per_user newState "u" = .error .InvalidUser) :=
  ⟨rfl, C5_unknown_user_asymmetry newState "u" ['w'] rfl⟩

/-- C7: in every reachable state no user index entry maps to an empty id
set, and a removal that empties a user's set deletes the entry itself,
so a subsequent `get_accounts_per_user` fails with the unknown-user
error and `get_users_count` no longer counts that user. -/
theorem C7_no_empty_entries (s : PMState) (h : Reachable s) :
    (∀ u set, alGet s.accounts_per_user u = some set → set ≠ []) ∧
    (∀ (env : Env) u id, alGet s.accounts_per_user u = some [id] →
       alGet (remove_account env s u id).st.accounts_per_user u = none ∧
       get_accounts_per_user (remove_account env s u id).st u = .error .InvalidUser ∧
       get_users_count (remove_account env s u id).st + 1 = get_users_count s) := by
  have hInv := reachable_inv h
  refine ⟨fun u set hs => (hInv.set_spec u set hs).1, ?_⟩
  intro env u id hmap
  have hid : id ∈ [id] := by simp
  rw [remove_account_st hmap hid]
  have hemp : (setRemove [id] id).isEmpty := by simp [setRemove]
  have hnone : alGet (detachState s u id [id]).accounts_per_user u = none := by
    unfold detachState
    simp only [if_pos hemp]
    exact alGet_alRemove_self _ _
  refine ⟨hnone, ?_, ?_⟩
  · unfold get_accounts_per_user
    simp only [hnone]
  · unfold detachState get_users_count
    simp only [if_pos hemp]
    exact length_alRemove_of_isSome hInv.apu_nodup (by simp [hmap])

/-- Witness for C7 at the state with one stored account. -/
theorem C7_witness :
    (∀ u set, alGet (add_account ⟨1000, 1⟩ newState "u" ['w'] ['a'] ['b']).st.accounts_per_user
        u = some set → set ≠ []) ∧
    (∀ (env : Env) u id,
       alGet (add_account ⟨1000, 1⟩ newState "u" ['w'] ['a'] ['b']).st.accounts_per_user
         u = some [id] →
       alGet (remove_account env (add_account ⟨1000, 1⟩ newState "u" ['w'] ['a'] ['b']).st
         u id).st.accounts_per_user u = none ∧
       get_accounts_per_user (remove_account env
         (add_account ⟨1000, 1⟩ newState "u" ['w'] ['a'] ['b']).st u id).st u =
         .error .InvalidUser ∧
       get_users_count (remove_account env
         (add_account ⟨1000, 1⟩ newState "u" ['w'] ['a'] ['b']).st u id).st + 1 =
         get_users_count (add_account ⟨1000, 1⟩ newState "u" ['w'] ['a'] ['b']).st) :=
  C7_no_empty_entries _ (Reachable.add ⟨1000, 1⟩ newState "u" ['w'] ['a'] ['b'] Reachable.init)

/-- C8: `remove_account` fails with the unknown-user error when the user
has no index entry, fails with `"Account not found"` when the user has
an entry but the id is not in its set — leaving the state unchanged and
issuing no transfer in both failure cases — and on success deletes the
record from the table, detaches the id from the user's set, and issues
a refund of `storage_byte_cost` times the bytes of storage released
whenever that amount exceeds the one-yoctoNEAR floor. -/
theorem C8_remove_account_contract (env : Env) (s : PMState) (u : String) (id : Nat)
    (h : Reachable s) :
    (alGet s.accounts_per_user u = none →
       remove_account env s u id = ⟨s, [], some .InvalidUser⟩) ∧
    (∀ set, alGet s.accounts_per_user u = some set → id ∉ set →
       remove_account env s u id = ⟨s, [], some .AccountNotFound⟩) ∧
    (∀ set, alGet s.accounts_per_user u = some set → id ∈ set →
       env.storage_byte_cost * (storageUsage s - storageUsage (detachState s u id set)) ≤
         U128MAX →
       remove_account env s u id =
         ⟨detachState s u id set,
          if 1 < env.storage_byte_cost * (storageUsage s - storageUsage (detachState s u id set))
          then [env.storage_byte_cost * (storageUsage s - storageUsage (detachState s u id set))]
          else [], none⟩ ∧
       alGet (detachState s u id set).accounts_by_id id = none ∧
       (∀ set', alGet (detachState s u id set).accounts_per_user u = some set' →
          id ∉ set')) := by
  have hInv := reachable_inv h
  refine ⟨?_, ?_, ?_⟩
  · intro hnone
    unfold remove_account
    rw [remove_account_from_user_none id hnone]
  · intro set hmap hns
    have hcont : set.contains id = false := by simpa using hns
    unfold remove_account
    rw [remove_account_from_user_some id hmap]
    simp only [hcont, Bool.not_false, if_true]
    have hsr : setRemove set id = set := setRemove_eq_self hns
    have hne : ¬ (setRemove set id).isEmpty := by
      rw [hsr, List.isEmpty_iff]
      exact (hInv.set_spec u set hmap).1
    rw [if_neg hne, hsr, alInsert_self hmap]
  · intro set hmap hid hnof
    refine ⟨remove_account_ok hmap hid hnof, alGet_alRemove_self _ _, ?_⟩
    intro set' hset'
    unfold detachState at hset'
    by_cases hemp : (setRemove set id).isEmpty
    · rw [if_pos hemp] at hset'
      simp only at hset'
      rw [alGet_alRemove_self] at hset'
      exact Option.noConfusion hset'
    · rw [if_neg hemp] at hset'
      simp only at hset'
      rw [alGet_alInsert_self] at hset'
      cases hset'
      intro hmem
      exact ((mem_setRemove_iff _ _ _).1 hmem).2 rfl

/-- Witness for C8 at the state with one stored account. -/
theorem C8_witness :
    (alGet (add_account ⟨1000, 1⟩ newState "u" ['w'] ['a'] ['b']).st.accounts_per_user "v" =
       none →
     remove_account ⟨0, 1⟩ (add_account ⟨1000, 1⟩ newState "u" ['w'] ['a'] ['b']).st "v" 1 =
       ⟨(add_account ⟨1000, 1⟩ newState "u" ['w'] ['a'] ['b']).st, [], some .InvalidUser⟩) ∧
    (∀ set, alGet (add_account ⟨1000, 1⟩ newState "u" ['w'] ['a'] ['b']).st.accounts_per_user
        "v" = some set → 1 ∉ set →
       remove_account ⟨0, 1⟩ (add_account ⟨1000, 1⟩ newState "u" ['w'] ['a'] ['b']).st "v" 1 =
         ⟨(add_account ⟨1000, 1⟩ newState "u" ['w'] ['a'] ['b']).st, [],
          some .AccountNotFound⟩) ∧
    (∀ set, alGet (add_account ⟨1000, 1⟩ newState "u" ['w'] ['a'] ['b']).st.accounts_per_user
        "v" = some set → 1 ∈ set →
       (⟨0, 1⟩ : Env).storage_byte_cost *
         (storageUsage (add_account ⟨1000, 1⟩ newState "u" ['w'] ['a'] ['b']).st -
          storageUsage (detachState (add_account ⟨1000, 1⟩ newState "u" ['w'] ['a'] ['b']).st
            "v" 1 set)) ≤ U128MAX →
       remove_account ⟨0, 1⟩ (add_account ⟨1000, 1⟩ newState "u" ['w'] ['a'] ['b']).st "v" 1 =
         ⟨detachState (add_account ⟨1000, 1⟩ newState "u" ['w'] ['a'] ['b']).st "v" 1 set,
          if 1 < (⟨0, 1⟩ : Env).storage_byte_cost *
            (storageUsage (add_account ⟨1000, 1⟩ newState "u" ['w'] ['a'] ['b']).st -
             storageUsage (detachState (add_account ⟨1000, 1⟩ newState "u" ['w'] ['a'] ['b']).st
               "v" 1 set))
          then [(⟨0, 1⟩ : Env).storage_byte_cost *
            (storageUsage (add_account ⟨1000, 1⟩ newState "u" ['w'] ['a'] ['b']).st -
             storageUsage (detachState (add_account ⟨1000, 1⟩ newState "u" ['w'] ['a'] ['b']).st
               "v" 1 set))]
          else [], none⟩ ∧
       alGet (detachState (add_account ⟨1000, 1⟩ newState "u" ['w'] ['a'] ['b']).st
         "v" 1 set).accounts_by_id 1 = none ∧
       (∀ set', alGet (detachState (add_account ⟨1000, 1⟩ newState "u" ['w'] ['a'] ['b']).st
          "v" 1 set).accounts_per_user "v" = some set' → 1 ∉ set')) :=
  C8_remove_account_contract ⟨0, 1⟩ _ "v" 1
    (Reachable.add ⟨1000, 1⟩ newState "u" ['w'] ['a'] ['b'] Reachable.init)

/-- C10: in every reachable state the stored credentials are valid
base64 encodings of valid UTF-8, so `get_one_account` never panics at
all (no decode failure, no unwrap failure) and `get_accounts_per_user`
succeeds for every user that has an index entry. -/
theorem C10_decode_branches_unreachable (s : PMState) (u : String) (w : List Char)
    (h : Reachable s) :
    (∃ r, get_one_account s u w = .ok r) ∧
    (∀ set, alGet s.accounts_per_user u = some set →
       ∃ l, get_accounts_per_user s u = .ok l) := by
  have hInv := reachable_inv h
  have hmemOf : ∀ set, alGet s.accounts_per_user u = some set →
      ∀ acc ∈ set, ∃ a, alGet s.accounts_by_id acc = some a ∧
        WellEncoded a.username ∧ WellEncoded a.password := by
    intro set hmap acc hacc
    obtain ⟨a, ha, _⟩ := (hInv.set_spec u set hmap).2.2 acc hacc
    obtain ⟨_, _, _, _, hwu, hwp⟩ := hInv.rec_spec acc a ha
    exact ⟨a, ha, hwu, hwp⟩
  constructor
  · unfold get_one_account
    cases hmap : alGet s.accounts_per_user u with
    | none => exact ⟨none, rfl⟩
    | some set =>
        obtain ⟨r, hr⟩ := findInSet_total (hmemOf set hmap)
        exact ⟨r, hr⟩
  · intro set hmap
    unfold get_accounts_per_user
    simp only [hmap]
    exact decodeAll_total (hmemOf set hmap)

/-- Witness for C10 at the state with one stored account. -/
theorem C10_witness :
    (∃ r, get_one_account (add_account ⟨1000, 1⟩ newState "u" ['w'] ['a'] ['b']).st
       "u" ['w'] = .ok r) ∧
    (∀ set, alGet (add_account ⟨1000, 1⟩ newState "u" ['w'] ['a'] ['b']).st.accounts_per_user
        "u" = some set →
       ∃ l, get_accounts_per_user (add_account ⟨1000, 1⟩ newState "u" ['w'] ['a'] ['b']).st
         "u" = .ok l) :=
  C10_decode_branches_unreachable _ "u" ['w']
    (Reachable.add ⟨1000, 1⟩ newState "u" ['w'] ['a'] ['b'] Reachable.init)

/-- C9: decoding the codec's encoding of any plaintext yields the
plaintext again, and after a successful `add_account` the credentials
returned by `get_one_account` and contained in the
`get_accounts_per_user` result equal the plaintexts supplied to that
call. -/
theorem C9_codec_roundtrip :
    (∀ p : List Char, (b64decode (b64encode (utf8Encode p))).bind utf8Decode = some p) ∧
    (∀ (env : Env) (s : PMState) (u : String) (w un pw : List Char),
       Reachable s → (add_account env s u w un pw).err = none →
       ∃ id, get_one_account (add_account env s u w un pw).st u w =
               .ok (some ⟨id, u, w, un, pw⟩) ∧
             ∃ l, get_accounts_per_user (add_account env s u w un pw).st u = .ok l ∧
                  (⟨id, u, w, un, pw⟩ : UserAccount) ∈ l) := by
  refine ⟨codec_roundtrip, ?_⟩
  intro env s u w un pw hreach hsucc
  have hInv := reachable_inv hreach
  have hInvPost : Inv (add_account env s u w un pw).st := Inv_add env s u w un pw hInv
  obtain ⟨id, s1, hres, hdep, heq⟩ := add_account_success_st env s u w un pw hsucc
  have hsucc' : (add_account_core env (storageUsage s) s1 u w un pw id).err = none := by
    rw [← heq]
    exact hsucc
  have hst := (add_account_core_success rfl hsucc').1
  have hpost : (add_account env s u w un pw).st =
      add_account_to_user { s1 with
        accounts_by_id := alInsert s1.accounts_by_id id (mkAccount id u w un pw) } u id := by
    rw [heq, hst]
  have hInvS : Inv (add_account_to_user { s1 with
      accounts_by_id := alInsert s1.accounts_by_id id (mkAccount id u w un pw) } u id) := hpost ▸ hInvPost
  obtain ⟨set3, hset3, hid3⟩ := attach_mem { s1 with
    accounts_by_id := alInsert s1.accounts_by_id id (mkAccount id u w un pw) } u id
  have hrec : alGet (add_account_to_user { s1 with
      accounts_by_id := alInsert s1.accounts_by_id id (mkAccount id u w un pw) } u id).accounts_by_id id =
      some (mkAccount id u w un pw) := by
    unfold add_account_to_user
    simp only
    exact alGet_alInsert_self _ _ _
  have hmem : ∀ acc ∈ set3, ∃ a, alGet (add_account_to_user { s1 with
      accounts_by_id := alInsert s1.accounts_by_id id (mkAccount id u w un pw) } u id).accounts_by_id acc =
      some a ∧ WellEncoded a.username ∧ WellEncoded a.password := by
    intro acc hacc
    obtain ⟨a, ha, _⟩ := (hInvS.set_spec u set3 hset3).2.2 acc hacc
    obtain ⟨_, _, _, _, hwu, hwp⟩ := hInvS.rec_spec acc a ha
    exact ⟨a, ha, hwu, hwp⟩
  obtain ⟨l, hl⟩ := decodeAll_total hmem
  have hdc : decode_credentials (mkAccount id u w un pw) = .ok ⟨id, u, w, un, pw⟩ :=
    decode_credentials_of_encode _ un pw rfl rfl
  refine ⟨id, ?_, l, ?_, ?_⟩
  · rw [hpost]
    exact get_one_attach_state rfl hInvS
  · rw [hpost]
    unfold get_accounts_per_user
    simp only [hset3]
    exact hl
  · exact decodeAll_mem hl hid3 hrec hdc

/-- Witness for C9's universally quantified statement: the codec
round-trips on a concrete plaintext, and a concrete successful add is
read back verbatim. -/
theorem C9_witness :
    ((b64decode (b64encode (utf8Encode ['p', '1']))).bind utf8Decode = some ['p', '1']) ∧
    ((add_account ⟨1000, 1⟩ newState "u" ['w'] ['a'] ['b']).err = none ∧
     ∃ id, get_one_account (add_account ⟨1000, 1⟩ newState "u" ['w'] ['a'] ['b']).st
             "u" ['w'] = .ok (some ⟨id, "u", ['w'], ['a'], ['b']⟩) ∧
           ∃ l, get_accounts_per_user
                  (add_account ⟨1000, 1⟩ newState "u" ['w'] ['a'] ['b']).st "u" = .ok l ∧
                (⟨id, "u", ['w'], ['a'], ['b']⟩ : UserAccount) ∈ l) :=
  ⟨C9_codec_roundtrip.1 ['p', '1'],
   by decide,
   C9_codec_roundtrip.2 ⟨1000, 1⟩ newState "u" ['w'] ['a'] ['b'] Reachable.init (by decide)⟩

/-- C3: two successful `add_account` calls for the same
`(user, website)` pair update the one record in place — the id is
unchanged, no second record is created (the table's key list is the
same), and `get_users_count` is the same before and after the second
call. -/
theorem C3_idempotent_upsert (env1 env2 : Env) (s : PMState) (u : String)
    (w un1 pw1 un2 pw2 : List Char) (hreach : Reachable s)
    (h1 : (add_account env1 s u w un1 pw1).err = none)
    (h2 : (add_account env2 (add_account env1 s u w un1 pw1).st u w un2 pw2).err = none) :
    ∃ id,
      get_one_account (add_account env1 s u w un1 pw1).st u w =
        .ok (some ⟨id, u, w, un1, pw1⟩) ∧
      get_one_account (add_account env2 (add_account env1 s u w un1 pw1).st u w un2 pw2).st
        u w = .ok (some ⟨id, u, w, un2, pw2⟩) ∧
      (add_account env2 (add_account env1 s u w un1 pw1).st u w un2 pw2).st.accounts_by_id.map
        Prod.fst = (add_account env1 s u w un1 pw1).st.accounts_by_id.map Prod.fst ∧
      get_users_count (add_account env2 (add_account env1 s u w un1 pw1).st u w un2 pw2).st =
        get_users_count (add_account env1 s u w un1 pw1).st := by
  have hInv := reachable_inv hreach
  have hInv1 : Inv (add_account env1 s u w un1 pw1).st := Inv_add env1 s u w un1 pw1 hInv
  obtain ⟨id1, s1', hres1, hdep1, heq1⟩ := add_account_success_st env1 s u w un1 pw1 h1
  have hsucc1' : (add_account_core env1 (storageUsage s) s1' u w un1 pw1 id1).err = none := by
    rw [← heq1]
    exact h1
  have hst1 := (add_account_core_success rfl hsucc1').1
  have hpost1 : (add_account env1 s u w un1 pw1).st =
      add_account_to_user { s1' with
        accounts_by_id := alInsert s1'.accounts_by_id id1 (mkAccount id1 u w un1 pw1) }
        u id1 := by
    rw [heq1, hst1]
  have hInvS1 : Inv (add_account_to_user { s1' with
      accounts_by_id := alInsert s1'.accounts_by_id id1 (mkAccount id1 u w un1 pw1) }
      u id1) := hpost1 ▸ hInv1
  have hg1 : get_one_account (add_account env1 s u w un1 pw1).st u w =
      .ok (some ⟨id1, u, w, un1, pw1⟩) := by
    rw [hpost1]
    exact get_one_attach_state rfl hInvS1
  obtain ⟨id2, s2', hres2, hdep2, heq2⟩ :=
    add_account_success_st env2 (add_account env1 s u w un1 pw1).st u w un2 pw2 h2
  rcases hres2 with ⟨a, hga, hid2, hs2'⟩ | ⟨hgn, _, _⟩
  · rw [hg1] at hga
    have ha : (⟨id1, u, w, un1, pw1⟩ : UserAccount) = a := by simpa using hga
    have hid2' : id2 = id1 := by rw [hid2, ← ha]
    subst hs2'
    rw [hid2'] at heq2
    have hsucc2' : (add_account_core env2 (storageUsage (add_account env1 s u w un1 pw1).st)
        (add_account env1 s u w un1 pw1).st u w un2 pw2 id1).err = none := by
      rw [← heq2]
      exact h2
    have hst2 := (add_account_core_success rfl hsucc2').1
    have hpost2 : (add_account env2 (add_account env1 s u w un1 pw1).st u w un2 pw2).st =
        add_account_to_user { (add_account env1 s u w un1 pw1).st with
          accounts_by_id := alInsert (add_account env1 s u w un1 pw1).st.accounts_by_id id1
            (mkAccount id1 u w un2 pw2) } u id1 := by
      rw [heq2, hst2]
    have hInv2 : Inv (add_account env2 (add_account env1 s u w un1 pw1).st u w un2 pw2).st :=
      Inv_add env2 (add_account env1 s u w un1 pw1).st u w un2 pw2 hInv1
    have hInvS2 : Inv (add_account_to_user { (add_account env1 s u w un1 pw1).st with
        accounts_by_id := alInsert (add_account env1 s u w un1 pw1).st.accounts_by_id id1
          (mkAccount id1 u w un2 pw2) } u id1) := hpost2 ▸ hInv2
    obtain ⟨set1, stored1, hmap1, hidset1, hstored1, _, _, _, _, _, _⟩ :=
      get_one_spec_some hInv1 hg1
    have hnoop : add_account_to_user { (add_account env1 s u w un1 pw1).st with
        accounts_by_id := alInsert (add_account env1 s u w un1 pw1).st.accounts_by_id id1
          (mkAccount id1 u w un2 pw2) } u id1 =
        { (add_account env1 s u w un1 pw1).st with
          accounts_by_id := alInsert (add_account env1 s u w un1 pw1).st.accounts_by_id id1
            (mkAccount id1 u w un2 pw2) } :=
      attach_noop (show alGet _ u = some set1 from hmap1) (by simpa using hidset1)
    refine ⟨id1, hg1, ?_, ?_, ?_⟩
    · rw [hpost2]
      exact get_one_attach_state rfl hInvS2
    · rw [hpost2, hnoop]
      simp only
      exact keys_alInsert_of_isSome _ (by simp [hstored1])
    · rw [hpost2, hnoop]
      rfl
  · rw [hg1] at hgn
    simp at hgn

/-- Witness for C3 at a concrete pair of successful adds on a fresh
instance. -/
theorem C3_witness :
    (add_account ⟨1000, 1⟩ newState "u" ['w'] ['a'] ['b']).err = none ∧
    (add_account ⟨1000, 1⟩ (add_account ⟨1000, 1⟩ newState "u" ['w'] ['a'] ['b']).st
      "u" ['w'] ['c'] ['d']).err = none ∧
    (∃ id,
      get_one_account (add_account ⟨1000, 1⟩ newState "u" ['w'] ['a'] ['b']).st "u" ['w'] =
        .ok (some ⟨id, "u", ['w'], ['a'], ['b']⟩) ∧
      get_one_account (add_account ⟨1000, 1⟩
        (add_account ⟨1000, 1⟩ newState "u" ['w'] ['a'] ['b']).st "u" ['w'] ['c'] ['d']).st
        "u" ['w'] = .ok (some ⟨id, "u", ['w'], ['c'], ['d']⟩) ∧
      (add_account ⟨1000, 1⟩ (add_account ⟨1000, 1⟩ newState "u" ['w'] ['a'] ['b']).st
        "u" ['w'] ['c'] ['d']).st.accounts_by_id.map Prod.fst =
        (add_account ⟨1000, 1⟩ newState "u" ['w'] ['a'] ['b']).st.accounts_by_id.map
          Prod.fst ∧
      get_users_count (add_account ⟨1000, 1⟩
        (add_account ⟨1000, 1⟩ newState "u" ['w'] ['a'] ['b']).st "u" ['w'] ['c'] ['d']).st =
        get_users_count (add_account ⟨1000, 1⟩ newState "u" ['w'] ['a'] ['b']).st) :=
  ⟨by decide, by decide,
   C3_idempotent_upsert ⟨1000, 1⟩ ⟨1000, 1⟩ newState "u" ['w'] ['a'] ['b'] ['c'] ['d']
     Reachable.init (by decide) (by decide)⟩

/-- C1 (counterexample to rollback exactness): on `InsufficientPayment`
the state is NOT restored to the pre-call state.  For a failed new
creation the identifier counter stays incremented (1 instead of 0),
and for a failed update of an existing `(user, website)` record the
rollback deletes the record (and the user's index entry) instead of
restoring the previous value. -/
theorem C1_rollback_incomplete :
    ((add_account ⟨1, 1⟩ newState "u" ['w'] ['a'] ['b']).err =
       some (.InsufficientPayment 103) ∧
     newState.account_id_counter = 0 ∧
     (add_account ⟨1, 1⟩ newState "u" ['w'] ['a'] ['b']).st.account_id_counter = 1) ∧
    ((add_account ⟨1, 1⟩ (add_account ⟨1000, 1⟩ newState "u" ['w'] ['a'] ['b']).st
        "u" ['w'] ['a', 'a', 'a', 'a'] ['b', 'b', 'b', 'b']).err =
       some (.InsufficientPayment 8) ∧
     alGet (add_account ⟨1000, 1⟩ newState "u" ['w'] ['a'] ['b']).st.accounts_by_id 1 ≠
       none ∧
     alGet (add_account ⟨1, 1⟩ (add_account ⟨1000, 1⟩ newState "u" ['w'] ['a'] ['b']).st
        "u" ['w'] ['a', 'a', 'a', 'a'] ['b', 'b', 'b', 'b']).st.accounts_by_id 1 = none ∧
     alGet (add_account ⟨1, 1⟩ (add_account ⟨1000, 1⟩ newState "u" ['w'] ['a'] ['b']).st
        "u" ['w'] ['a', 'a', 'a', 'a'] ['b', 'b', 'b', 'b']).st.accounts_per_user "u" =
       none) := by
  decide

/-- C2 (counterexample to the signed storage delta): an update that
shrinks the stored record releases storage — the post-state uses fewer
bytes — but the call does not complete with a negative delta: the
unsigned u64 subtraction `storage_usage() - init_storage_used`
underflows and the call aborts, issuing no refund. -/
theorem C2_shrinking_update_aborts :
    storageUsage (add_account ⟨1000, 1⟩ (add_account ⟨1000, 1⟩ newState "u" ['w']
        ['a', 'a', 'a', 'a', 'a', 'a'] ['b', 'b', 'b', 'b', 'b', 'b']).st
        "u" ['w'] ['a'] ['b']).st <
      storageUsage (add_account ⟨1000, 1⟩ newState "u" ['w']
        ['a', 'a', 'a', 'a', 'a', 'a'] ['b', 'b', 'b', 'b', 'b', 'b']).st ∧
    (add_account ⟨1000, 1⟩ (add_account ⟨1000, 1⟩ newState "u" ['w']
        ['a', 'a', 'a', 'a', 'a', 'a'] ['b', 'b', 'b', 'b', 'b', 'b']).st
        "u" ['w'] ['a'] ['b']).err = some .ArithmeticOverflow ∧
    (add_account ⟨1000, 1⟩ (add_account ⟨1000, 1⟩ newState "u" ['w']
        ['a', 'a', 'a', 'a', 'a', 'a'] ['b', 'b', 'b', 'b', 'b', 'b']).st
        "u" ['w'] ['a'] ['b']).transfers = [] := by
  decide

/-- C6 (counterexample): a successful `add_account` whose surplus is
exactly one yoctoNEAR issues no refund transfer — the code requires
`refund > 1`, so a surplus of one smallest unit is kept, contradicting
the claim that it is refunded. -/
theorem C6_counterexample :
    (add_account ⟨104, 1⟩ newState "u" ['w'] ['a'] ['b']).err = none ∧
    (⟨104, 1⟩ : Env).attached_deposit -
      (⟨104, 1⟩ : Env).storage_byte_cost *
        (storageUsage (add_account ⟨104, 1⟩ newState "u" ['w'] ['a'] ['b']).st -
         storageUsage newState) = 1 ∧
    (add_account ⟨104, 1⟩ newState "u" ['w'] ['a'] ['b']).transfers = [] := by
  decide

/-- C6 (amended): on every successful `add_account` the surplus
(deposit minus required cost) is transferred back in full when it is
strictly greater than one yoctoNEAR, and kept (no transfer) when it is
zero or exactly one yoctoNEAR. -/
theorem C6_amended_refund_floor (env : Env) (s : PMState) (u : String)
    (w un pw : List Char) (hsucc : (add_account env s u w un pw).err = none) :
    (add_account env s u w un pw).transfers =
      (if 1 < env.attached_deposit -
             env.storage_byte_cost *
               (storageUsage (add_account env s u w un pw).st - storageUsage s)
       then [env.attached_deposit -
             env.storage_byte_cost *
               (storageUsage (add_account env s u w un pw).st - storageUsage s)]
       else []) := by
  obtain ⟨id, s1, hres, hdep, heq⟩ := add_account_success_st env s u w un pw hsucc
  have hsucc' : (add_account_core env (storageUsage s) s1 u w un pw id).err = none := by
    rw [← heq]
    exact hsucc
  have hcs := add_account_core_success rfl hsucc'
  rw [heq, hcs.1]
  exact hcs.2.2.2

/-- Witness for C6's amended claim at a concrete input with surplus 2,
which is refunded. -/
theorem C6_amended_witness :
    (add_account ⟨105, 1⟩ newState "u" ['w'] ['a'] ['b']).err = none ∧
    (add_account ⟨105, 1⟩ newState "u" ['w'] ['a'] ['b']).transfers =
      (if 1 < (⟨105, 1⟩ : Env).attached_deposit -
             (⟨105, 1⟩ : Env).storage_byte_cost *
               (storageUsage (add_account ⟨105, 1⟩ newState "u" ['w'] ['a'] ['b']).st -
                storageUsage newState)
       then [(⟨105, 1⟩ : Env).attached_deposit -
             (⟨105, 1⟩ : Env).storage_byte_cost *
               (storageUsage (add_account ⟨105, 1⟩ newState "u" ['w'] ['a'] ['b']).st -
                storageUsage newState)]
       else []) :=
  ⟨by decide, C6_amended_refund_floor ⟨105, 1⟩ newState "u" ['w'] ['a'] ['b'] (by decide)⟩

end PassMan
